import Mathlib

set_option maxHeartbeats 1000000
set_option maxRecDepth 2000000

/-!
Verification of the event reconciliation script `scripts/ics_to_csv.js`
(the lock-aware, manual-first revision: `keepManual` / `preferICS` /
`safeCover` / `keyOf` / `parseDescTags` / `addOrMerge`).

The JavaScript is shallowly embedded: strings are `String`, the JS `null`
that can reach `start_time` is `Option.none`, and the external libraries
(luxon dates, papaparse CSV) are modelled by executable Lean functions that
follow their documented behaviour on the inputs the script produces.  The
configured zone is modelled as a fixed UTC offset (daylight-saving shifts
of the IANA zone database are outside the model).
-/

namespace Kiz

/-- JS whitespace (`\s`) as used by the script's regexes and `trim`,
modelled over the ASCII whitespace characters. -/
def isWs (c : Char) : Bool := c == ' ' || c == '\t' || c == '\n' || c == '\r'

/-- Scan behind `clean`: the flag records whether whitespace was seen since
the last word character; a single space is emitted before the next word
character, so runs collapse and a trailing run is dropped. -/
def goWs : Bool → List Char → List Char
  | _, [] => []
  | pend, c :: cs =>
    if isWs c then goWs true cs
    else if pend then ' ' :: c :: goWs false cs
    else c :: goWs false cs

/-- `clean` from the script: `(s ?? "").toString().replace(/\s+/g, " ").trim()`
on the character list. -/
def cleanChars (cs : List Char) : List Char := goWs false (cs.dropWhile isWs)

/-- `clean` (scripts/ics_to_csv.js): collapse whitespace runs to one space
and trim both ends. -/
def clean (s : String) : String := ⟨cleanChars s.data⟩

/-- JS `String.prototype.trim` on a character list. -/
def trimChars (cs : List Char) : List Char :=
  ((cs.dropWhile isWs).reverse.dropWhile isWs).reverse

/-- JS `String.prototype.trim`. -/
def trimStr (s : String) : String := ⟨trimChars s.data⟩

/-- `isLocked` (scripts/ics_to_csv.js line 400): the value is a string
matching `/^\s*!/`. -/
def isLocked (s : String) : Bool :=
  (s.data.dropWhile isWs).head? == some '!'

/-- `unlock` (scripts/ics_to_csv.js line 401):
`v.replace(/^\s*!/, "").trim()` — strip one leading whitespace-then-bang
prefix if present, then trim. -/
def unlock (s : String) : String :=
  match s.data.dropWhile isWs with
  | '!' :: rest => ⟨trimChars rest⟩
  | _ => trimStr s

/-- `hasVal` (scripts/ics_to_csv.js line 402): `!!clean(v)`. -/
def hasVal (s : String) : Bool := clean s != ""

/-- The eight lower-case endings accepted by the generic-logo regex
`/(?:^|\/)(logo|logo2)\.(?:png|jpe?g|webp)$/i`. -/
def logoEndings : List (List Char) :=
  ["logo.png".data, "logo.jpg".data, "logo.jpeg".data, "logo.webp".data,
   "logo2.png".data, "logo2.jpg".data, "logo2.jpeg".data, "logo2.webp".data]

/-- `isGenericLogo` (scripts/ics_to_csv.js line 403): the URL ends in
`logo.(png|jpe?g|webp)` or `logo2.(png|jpe?g|webp)`, case-insensitively,
with the filename at the start of the string or right after a slash. -/
def isGenericLogo (u : String) : Bool :=
  let l := u.data.map Char.toLower
  logoEndings.any fun suf =>
    decide (suf.length ≤ l.length) &&
    (l.drop (l.length - suf.length) == suf) &&
    (l.length == suf.length || l.get? (l.length - suf.length - 1) == some '/')

/-! Basic lemmas about `clean`. -/

theorem dropWhile_cons_not {p : Char → Bool} {l : List Char} {c : Char}
    {t : List Char} (h : l.dropWhile p = c :: t) : p c = false := by
  induction l with
  | nil => simp [List.dropWhile] at h
  | cons a l ih =>
    rw [List.dropWhile_cons] at h
    by_cases hp : p a
    · simp [hp] at h; exact ih h
    · simp [hp] at h
      obtain ⟨rfl, _⟩ := h
      simpa using hp

theorem goWs_idem (cs : List Char) :
    ∀ pend, goWs false (goWs pend cs) = goWs pend cs := by
  induction cs with
  | nil => intro pend; rfl
  | cons c cs ih =>
    intro pend
    by_cases hc : isWs c
    · simp only [goWs, hc, if_pos]
      exact ih true
    · cases pend with
      | false =>
        simp only [goWs, hc, Bool.false_eq_true, if_false]
        rw [ih false]
      | true =>
        have hsp : isWs ' ' = true := by decide
        simp only [goWs, hc, Bool.false_eq_true, if_false, if_true, hsp]
        rw [ih false]

theorem goWs_head_not_ws (cs : List Char) (h : ∀ d t, cs = d :: t → isWs d = false) :
    (goWs false cs).dropWhile isWs = goWs false cs := by
  match cs with
  | [] => rfl
  | c :: cs =>
    have hc : isWs c = false := h c cs rfl
    simp only [goWs, hc, Bool.false_eq_true, if_false, List.dropWhile_cons]

theorem cleanChars_idem (cs : List Char) : cleanChars (cleanChars cs) = cleanChars cs := by
  unfold cleanChars
  rw [goWs_head_not_ws]
  · exact goWs_idem _ false
  · intro d t hdt
    exact dropWhile_cons_not hdt

/-- `clean` is idempotent. -/
theorem clean_idem (s : String) : clean (clean s) = clean s := by
  unfold clean
  exact congrArg String.mk (cleanChars_idem s.data)

theorem goWs_of_no_ws (cs : List Char) (h : ∀ c ∈ cs, isWs c = false) :
    goWs false cs = cs := by
  induction cs with
  | nil => rfl
  | cons c cs ih =>
    have hc : isWs c = false := h c (by simp)
    simp only [goWs, hc, Bool.false_eq_true, if_false]
    rw [ih (fun d hd => h d (by simp [hd]))]

theorem dropWhile_of_no_ws (cs : List Char) (h : ∀ c ∈ cs, isWs c = false) :
    cs.dropWhile isWs = cs := by
  cases cs with
  | nil => rfl
  | cons c cs =>
    rw [List.dropWhile_cons, h c (by simp)]
    simp

/-- A whitespace-free string is fixed by `clean`. -/
theorem clean_of_no_ws (s : String) (h : ∀ c ∈ s.data, isWs c = false) :
    clean s = s := by
  unfold clean cleanChars
  rw [dropWhile_of_no_ws _ h, goWs_of_no_ws _ h]

/-! The event record and the lock-aware merge policy. -/

/-- One row of the store / one incoming feed entry, after field extraction.
`start_time` is `Option String` because the JS value can be `null` (an
unparseable start rounds to `null` inside `addOrMerge`). -/
structure Row where
  id : String
  name : String
  start_time : Option String
  place : String
  cover : String
  event_url : String
  ticket_url : String
deriving DecidableEq, Repr

/-- `keepManual` (scripts/ics_to_csv.js lines 406-410): policy for the
manual-first fields. -/
def keepManual (existingVal incomingVal : String) : String :=
  if isLocked existingVal then unlock existingVal
  else if hasVal existingVal then existingVal
  else clean incomingVal

/-- `preferICS` (scripts/ics_to_csv.js lines 413-416): policy for the
feed-managed fields. -/
def preferICS (existingVal incomingVal : String) : String :=
  if isLocked existingVal then unlock existingVal
  else if hasVal incomingVal then clean incomingVal
  else clean existingVal

/-- `safeCover` (scripts/ics_to_csv.js lines 418-421): `keepManual` with the
generic-logo guard; `clean(existingVal) || ""` is spelled as an `if`. -/
def safeCover (existingVal incomingVal : String) : String :=
  let picked := keepManual existingVal incomingVal
  if isGenericLogo picked then
    (if clean existingVal == "" then "" else clean existingVal)
  else picked

/-- JS `(v ?? "")`-style coercion feeding `clean` when the value may be
`null`. -/
def cleanO (o : Option String) : String := clean (o.getD "")

/-- `isLocked` on a possibly-`null` value: `typeof v === "string"` fails on
`null`. -/
def isLockedO (o : Option String) : Bool := o.elim false isLocked

/-- `hasVal` on a possibly-`null` value. -/
def hasValO (o : Option String) : Bool := cleanO o != ""

/-- `preferICS` as invoked on `start_time`, whose value may be `null`. -/
def preferICSStart (e i : Option String) : Option String :=
  if isLockedO e then (match e with | some s => some (unlock s) | none => none)
  else some (if hasValO i then cleanO i else cleanO e)

/-- `mergeRowsManualFirst` (scripts/ics_to_csv.js lines 423-433). -/
def mergeRowsManualFirst (existing incoming : Row) : Row :=
  { id := keepManual existing.id incoming.id
    name := preferICS existing.name incoming.name
    start_time := preferICSStart existing.start_time incoming.start_time
    place := preferICS existing.place incoming.place
    cover := safeCover existing.cover incoming.cover
    event_url := keepManual existing.event_url incoming.event_url
    ticket_url := keepManual existing.ticket_url incoming.ticket_url }

/-! Spec-side per-field policies, written from the spec's words, to be
compared with the code's `keepManual`/`preferICS`/`safeCover`. -/

/-- Manual-first policy as the spec words it: locked existing is unlocked
and kept; else a non-empty existing is kept; else the incoming value is
taken. -/
def specManualFirst (existingVal incomingVal : String) : String :=
  if isLocked existingVal then unlock existingVal
  else if clean existingVal != "" then existingVal
  else incomingVal

/-- Feed-authoritative policy as the spec words it: locked existing is
unlocked and kept; else the incoming value is preferred when non-empty,
falling back to existing. -/
def specFeedAuthoritative (existingVal incomingVal : String) : String :=
  if isLocked existingVal then unlock existingVal
  else if clean incomingVal != "" then incomingVal
  else existingVal

/-- A string the script's `clean` leaves unchanged. -/
def strClean (s : String) : Bool := clean s == s

/-- `strClean` lifted to the possibly-`null` `start_time`. -/
def ostrClean : Option String → Bool
  | none => true
  | some s => strClean s

/-- All fields of a row are `clean`-normal. -/
def rowClean (r : Row) : Bool :=
  strClean r.id && strClean r.name && ostrClean r.start_time &&
  strClean r.place && strClean r.cover && strClean r.event_url &&
  strClean r.ticket_url

theorem keepManual_eq_spec (a b : String) (hb : clean b = b) :
    keepManual a b = specManualFirst a b := by
  unfold keepManual specManualFirst hasVal
  by_cases hl : isLocked a
  · simp [hl]
  · simp only [hl, Bool.false_eq_true, if_false]
    by_cases ha : clean a == ""
    · simp only [bne, ha, Bool.not_true, Bool.false_eq_true, if_false, hb]
    · simp only [bne, ha, Bool.not_false, if_true]

theorem preferICS_eq_spec (a b : String) (ha : clean a = a) (hb : clean b = b) :
    preferICS a b = specFeedAuthoritative a b := by
  unfold preferICS specFeedAuthoritative hasVal
  by_cases hl : isLocked a
  · simp [hl]
  · simp only [hl, Bool.false_eq_true, if_false]
    by_cases hbv : clean b == ""
    · simp only [bne, hbv, Bool.not_true, Bool.false_eq_true, if_false, ha]
    · simp only [bne, hbv, Bool.not_false, if_true, hb, ha]

/-- C8 (confirmed): a generic placeholder/logo cover URL is treated by the
merge exactly like an absent value — `safeCover` with a generic incoming
cover equals `safeCover` with an empty incoming cover, so it can never
overwrite anything; in particular merging existing cover `""` with incoming
`"images/logo.png"` yields `""`. -/
theorem C8_generic_logo_guard :
    (∀ a b : String, isGenericLogo (clean b) = true → safeCover a b = safeCover a "") ∧
    safeCover "" "images/logo.png" = "" ∧
    isGenericLogo "images/logo.png" = true := by
  refine ⟨?_, by decide, by decide⟩
  intro a b hb
  unfold safeCover keepManual
  by_cases hl : isLocked a
  · simp [hl]
  · simp only [hl, Bool.false_eq_true, if_false]
    by_cases ha : hasVal a
    · simp [ha]
    · have hae : clean a = "" := by
        unfold hasVal at ha
        simpa using ha
      simp only [ha, Bool.false_eq_true, if_false]
      have hce : clean "" = "" := by decide
      simp [hb, hce, hae]

/-- C8 witness. -/
theorem C8_generic_logo_guard_witness :
    isGenericLogo (clean "images/logo.png") = true ∧
    safeCover "poster.jpg" "images/logo.png" = safeCover "poster.jpg" "" :=
  ⟨by decide, C8_generic_logo_guard.1 "poster.jpg" "images/logo.png" (by decide)⟩

/-- C10 (confirmed): when the existing cover is locked and its unlocked form
matches the generic-logo pattern, the merged cover is the cleaned original
existing value, lock marker included; in particular existing cover
`"!logo.png"` survives any incoming cover verbatim. -/
theorem C10_locked_generic_cover_keeps_marker :
    (∀ e i : Row, isLocked e.cover = true → isGenericLogo (unlock e.cover) = true →
      (mergeRowsManualFirst e i).cover = clean e.cover) ∧
    (∀ b : String, safeCover "!logo.png" b = "!logo.png") := by
  constructor
  · intro e i hl hg
    show safeCover e.cover i.cover = clean e.cover
    unfold safeCover keepManual
    simp only [hl, if_true, hg]
    by_cases hce : clean e.cover == ""
    · have : clean e.cover = "" := by simpa using hce
      simp [hce, this]
    · simp [hce]
  · intro b
    have hl : isLocked "!logo.png" = true := by decide
    have hg : isGenericLogo (unlock "!logo.png") = true := by decide
    unfold safeCover keepManual
    simp only [hl, if_true, hg]
    decide

/-- C10 witness. -/
theorem C10_locked_generic_cover_keeps_marker_witness :
    isLocked ("!logo.png" : String) = true ∧
    isGenericLogo (unlock "!logo.png") = true ∧
    (mergeRowsManualFirst
      { id := "manual_1", name := "Fest", start_time := some "2026-01-01T20:00:00+01:00",
        place := "Bourges", cover := "!logo.png", event_url := "", ticket_url := "" }
      { id := "manual_1", name := "Fest", start_time := some "2026-01-01T20:00:00+01:00",
        place := "Bourges", cover := "https://x.org/a.jpg", event_url := "", ticket_url := "" }).cover
      = clean "!logo.png" :=
  ⟨by decide, by decide,
    C10_locked_generic_cover_keeps_marker.1
      { id := "manual_1", name := "Fest", start_time := some "2026-01-01T20:00:00+01:00",
        place := "Bourges", cover := "!logo.png", event_url := "", ticket_url := "" }
      { id := "manual_1", name := "Fest", start_time := some "2026-01-01T20:00:00+01:00",
        place := "Bourges", cover := "https://x.org/a.jpg", event_url := "", ticket_url := "" }
      (by decide) (by decide)⟩

/-- C2 counterexample: the claim includes `cover` among the plain
manual-first fields, but the code merges covers through `safeCover`:
merging existing cover `""` with incoming `"images/logo.png"` yields `""`,
while the claimed policy yields the incoming `"images/logo.png"`. -/
theorem C2_policy_counterexample :
    (mergeRowsManualFirst
      { id := "manual_1", name := "Fest", start_time := some "2026-01-01T20:00:00+01:00",
        place := "Bourges", cover := "", event_url := "", ticket_url := "" }
      { id := "manual_1", name := "Fest", start_time := some "2026-01-01T20:00:00+01:00",
        place := "Bourges", cover := "images/logo.png", event_url := "", ticket_url := "" }).cover
      = "" ∧
    specManualFirst "" "images/logo.png" = "images/logo.png" ∧
    ("" : String) ≠ "images/logo.png" :=
  ⟨by decide, by decide, by decide⟩

/-- C2 (corrected): for rows whose field values are `clean`-normal the merge
follows the claimed per-field policy for `id`, `event_url`, `ticket_url`
(manual-first) and `name`, `start_time`, `place` (feed-authoritative), but
`cover` follows manual-first only up to the generic-logo guard: if the
value the policy picks matches the placeholder pattern, the cleaned
existing cover (empty if none) results instead. -/
theorem C2_policy_amended (e i : Row) (es is : String)
    (he : rowClean e = true) (hi : rowClean i = true)
    (hes : e.start_time = some es) (his : i.start_time = some is) :
    (mergeRowsManualFirst e i).id = specManualFirst e.id i.id ∧
    (mergeRowsManualFirst e i).event_url = specManualFirst e.event_url i.event_url ∧
    (mergeRowsManualFirst e i).ticket_url = specManualFirst e.ticket_url i.ticket_url ∧
    (mergeRowsManualFirst e i).name = specFeedAuthoritative e.name i.name ∧
    (mergeRowsManualFirst e i).start_time = some (specFeedAuthoritative es is) ∧
    (mergeRowsManualFirst e i).place = specFeedAuthoritative e.place i.place ∧
    (mergeRowsManualFirst e i).cover =
      (if isGenericLogo (specManualFirst e.cover i.cover) then clean e.cover
       else specManualFirst e.cover i.cover) := by
  have hce : ∀ {s : String}, strClean s = true → clean s = s := by
    intro s hs
    simpa [strClean] using hs
  simp only [rowClean, Bool.and_eq_true] at he hi
  obtain ⟨⟨⟨⟨⟨⟨he1, he2⟩, he3⟩, he4⟩, he5⟩, he6⟩, he7⟩ := he
  obtain ⟨⟨⟨⟨⟨⟨hi1, hi2⟩, hi3⟩, hi4⟩, hi5⟩, hi6⟩, hi7⟩ := hi
  refine ⟨keepManual_eq_spec _ _ (hce hi1), keepManual_eq_spec _ _ (hce hi6),
    keepManual_eq_spec _ _ (hce hi7), preferICS_eq_spec _ _ (hce he2) (hce hi2),
    ?_, preferICS_eq_spec _ _ (hce he4) (hce hi4), ?_⟩
  · rw [hes] at he3
    rw [his] at hi3
    have hesx : clean es = es := hce he3
    have hisx : clean is = is := hce hi3
    show preferICSStart e.start_time i.start_time = _
    rw [hes, his]
    unfold preferICSStart specFeedAuthoritative isLockedO hasValO cleanO
    by_cases hl : isLocked es
    · simp [hl]
    · simp [hl, hisx, hesx]
  · show safeCover e.cover i.cover = _
    unfold safeCover
    rw [keepManual_eq_spec _ _ (hce hi5)]
    by_cases hg : isGenericLogo (specManualFirst e.cover i.cover)
    · simp only [hg, if_true]
      by_cases hz : clean e.cover == ""
      · have : clean e.cover = "" := by simpa using hz
        simp [hz, this]
      · simp [hz]
    · simp [hg]

/-- C2 witness. -/
theorem C2_policy_amended_witness :
    rowClean
      { id := "manual_1", name := "Fest",
        start_time := some "2026-01-01T20:00:00+01:00", place := "Bourges",
        cover := "!poster.jpg", event_url := "", ticket_url := "" } = true ∧
    (mergeRowsManualFirst
      { id := "manual_1", name := "Fest",
        start_time := some "2026-01-01T20:00:00+01:00", place := "Bourges",
        cover := "!poster.jpg", event_url := "", ticket_url := "" }
      { id := "evt1", name := "Fest",
        start_time := some "2026-01-01T21:00:00+01:00", place := "Bourges",
        cover := "auto.jpg", event_url := "https://example.com/e1", ticket_url := "" }).event_url
      = specManualFirst "" "https://example.com/e1" :=
  ⟨by decide,
    (C2_policy_amended
      { id := "manual_1", name := "Fest",
        start_time := some "2026-01-01T20:00:00+01:00", place := "Bourges",
        cover := "!poster.jpg", event_url := "", ticket_url := "" }
      { id := "evt1", name := "Fest",
        start_time := some "2026-01-01T21:00:00+01:00", place := "Bourges",
        cover := "auto.jpg", event_url := "https://example.com/e1", ticket_url := "" }
      "2026-01-01T20:00:00+01:00" "2026-01-01T21:00:00+01:00"
      (by decide) (by decide) rfl rfl).2.1⟩

/-- C3 (corrected, merge level): when an existing record is merged with an
incoming record, every locked field of the existing record is emitted
unlocked — except `cover` when its unlocked form matches the generic-logo
pattern.  (Records that match no incoming entry are not merged at all and
keep their markers; see the pipeline-level counterexample.) -/
theorem C3_locks_stripped_on_merge (e i : Row) :
    (isLocked e.id = true → (mergeRowsManualFirst e i).id = unlock e.id) ∧
    (isLocked e.name = true → (mergeRowsManualFirst e i).name = unlock e.name) ∧
    (∀ s, e.start_time = some s → isLocked s = true →
      (mergeRowsManualFirst e i).start_time = some (unlock s)) ∧
    (isLocked e.place = true → (mergeRowsManualFirst e i).place = unlock e.place) ∧
    (isLocked e.event_url = true → (mergeRowsManualFirst e i).event_url = unlock e.event_url) ∧
    (isLocked e.ticket_url = true → (mergeRowsManualFirst e i).ticket_url = unlock e.ticket_url) ∧
    (isLocked e.cover = true → isGenericLogo (unlock e.cover) = false →
      (mergeRowsManualFirst e i).cover = unlock e.cover) := by
  refine ⟨?_, ?_, ?_, ?_, ?_, ?_, ?_⟩
  · intro h
    show keepManual e.id i.id = _
    simp [keepManual, h]
  · intro h
    show preferICS e.name i.name = _
    simp [preferICS, h]
  · intro s hs h
    show preferICSStart e.start_time i.start_time = _
    rw [hs]
    simp [preferICSStart, isLockedO, h]
  · intro h
    show preferICS e.place i.place = _
    simp [preferICS, h]
  · intro h
    show keepManual e.event_url i.event_url = _
    simp [keepManual, h]
  · intro h
    show keepManual e.ticket_url i.ticket_url = _
    simp [keepManual, h]
  · intro h hg
    show safeCover e.cover i.cover = _
    simp [safeCover, keepManual, h, hg]

/-- C3 witness (merge level). -/
theorem C3_locks_stripped_on_merge_witness :
    (mergeRowsManualFirst
      { id := "!a1", name := "!Fest", start_time := some "!2026-01-01T20:00:00+01:00",
        place := "!Bourges", cover := "!poster.jpg", event_url := "!https://e.x/1",
        ticket_url := "!https://t.x/1" }
      { id := "a1", name := "Feste", start_time := some "2026-01-01T21:00:00+01:00",
        place := "Vierzon", cover := "auto.jpg", event_url := "https://e.x/2",
        ticket_url := "https://t.x/2" }).cover = unlock "!poster.jpg" ∧
    unlock "!poster.jpg" = "poster.jpg" :=
  ⟨(C3_locks_stripped_on_merge
      { id := "!a1", name := "!Fest", start_time := some "!2026-01-01T20:00:00+01:00",
        place := "!Bourges", cover := "!poster.jpg", event_url := "!https://e.x/1",
        ticket_url := "!https://t.x/1" }
      { id := "a1", name := "Feste", start_time := some "2026-01-01T21:00:00+01:00",
        place := "Vierzon", cover := "auto.jpg", event_url := "https://e.x/2",
        ticket_url := "https://t.x/2" }).2.2.2.2.2.2 (by decide) (by decide),
   by decide⟩

/-! Dates: executable model of the luxon subset the script uses
(`DateTime.fromISO` with a configured zone, `startOf("minute")`,
`toISO({suppressMilliseconds: true})`, millisecond comparison).  The zone is
a fixed UTC offset; the parser accepts the ISO shapes
`YYYY-MM-DD[THH:MM[:SS[.mmm]]][Z|±HH:MM|±HHMM]` with four-digit years. -/

/-- Offset in minutes of the configured zone (`Europe/Paris` standard
time, daylight saving abstracted away). -/
def zoneOffsetMin : Int := 60

/-- A zone-local civil timestamp. -/
structure DT where
  year : Nat
  month : Nat
  day : Nat
  hour : Nat
  minute : Nat
  second : Nat
  ms : Nat
deriving DecidableEq, Repr

def isLeap (y : Nat) : Bool := (y % 4 == 0 && y % 100 != 0) || y % 400 == 0

def daysInMonth (y m : Nat) : Nat :=
  if m == 2 then (if isLeap y then 29 else 28)
  else if m == 4 || m == 6 || m == 9 || m == 11 then 30 else 31

/-- The validity test luxon applies to parsed components. -/
def validDT (d : DT) : Bool :=
  decide (1 ≤ d.year) && decide (d.year ≤ 9999) &&
  decide (1 ≤ d.month) && decide (d.month ≤ 12) &&
  decide (1 ≤ d.day) && decide (d.day ≤ daysInMonth d.year d.month) &&
  decide (d.hour ≤ 23) && decide (d.minute ≤ 59) && decide (d.second ≤ 59) &&
  decide (d.ms ≤ 999)

/-- Days since 1970-01-01 of a civil date (Hinnant's algorithm,
truncating integer division as in the reference implementation). -/
def daysFromCivil (y m d : Nat) : Int :=
  let yy : Int := (y : Int) - (if m ≤ 2 then 1 else 0)
  let era : Int := (if 0 ≤ yy then yy else yy - 399) / 400
  let yoe : Int := yy - era * 400
  let mp : Int := ((m : Int) + 9) % 12
  let doy : Int := (153 * mp + 2) / 5 + (d : Int) - 1
  let doe : Int := yoe * 365 + yoe / 4 - yoe / 100 + doy
  era * 146097 + doe - 719468

/-- Epoch milliseconds of a zone-local civil timestamp. -/
def toMillis (d : DT) : Int :=
  daysFromCivil d.year d.month d.day * 86400000
    + d.hour * 3600000 + d.minute * 60000 + d.second * 1000 + d.ms
    - zoneOffsetMin * 60000

/-- Civil date from days since the epoch (Hinnant's inverse). -/
def civilFromDays (z0 : Int) : Nat × Nat × Nat :=
  let z := z0 + 719468
  let era := (if 0 ≤ z then z else z - 146096) / 146097
  let doe := z - era * 146097
  let yoe := (doe - doe / 1460 + doe / 36524 - doe / 146096) / 365
  let y := yoe + era * 400
  let doy := doe - (365 * yoe + yoe / 4 - yoe / 100)
  let mp := (5 * doy + 2) / 153
  let dd := doy - (153 * mp + 2) / 5 + 1
  let m := mp + (if mp < 10 then 3 else -9)
  ((y + (if m ≤ 2 then 1 else 0)).toNat, m.toNat, dd.toNat)

/-- Zone-local civil timestamp of an epoch-millisecond instant. -/
def dtFromMillis (t : Int) : DT :=
  let lt := t + zoneOffsetMin * 60000
  let days := lt.fdiv 86400000
  let msod := (lt - days * 86400000).toNat
  let c := civilFromDays days
  { year := c.1, month := c.2.1, day := c.2.2,
    hour := msod / 3600000, minute := msod % 3600000 / 60000,
    second := msod % 60000 / 1000, ms := msod % 1000 }

/-- Numeric value of a digit character. -/
def dval (c : Char) : Nat := c.toNat - 48

def read2 : List Char → Option (Nat × List Char)
  | a :: b :: rest =>
    if a.isDigit && b.isDigit then some (dval a * 10 + dval b, rest) else none
  | _ => none

def read3 : List Char → Option (Nat × List Char)
  | a :: b :: c :: rest =>
    if a.isDigit && b.isDigit && c.isDigit then
      some ((dval a * 10 + dval b) * 10 + dval c, rest)
    else none
  | _ => none

def read4 : List Char → Option (Nat × List Char)
  | a :: b :: c :: d :: rest =>
    if a.isDigit && b.isDigit && c.isDigit && d.isDigit then
      some (((dval a * 10 + dval b) * 10 + dval c) * 10 + dval d, rest)
    else none
  | _ => none

/-- Validate components and express a foreign-offset timestamp in the
configured zone (an equal offset needs no conversion, and a conversion
always yields valid components, so the second check is an embedded
assertion, not a behaviour change). -/
def mkDT (y mo da hh mi ss ms : Nat) (off : Int) : Option DT :=
  let d : DT := ⟨y, mo, da, hh, mi, ss, ms⟩
  if validDT d then
    (if off == zoneOffsetMin then some d
     else
       let c := dtFromMillis (daysFromCivil y mo da * 86400000
         + hh * 3600000 + mi * 60000 + ss * 1000 + ms - off * 60000)
       if validDT c then some c else none)
  else none

def parseOffNum (y mo da hh mi ss ms : Nat) (sign : Int) (cs : List Char) : Option DT :=
  match read2 cs with
  | none => none
  | some (oh, r1) =>
    match r1 with
    | [] => mkDT y mo da hh mi ss ms (sign * (oh * 60))
    | ':' :: r2 =>
      match read2 r2 with
      | some (om, []) => mkDT y mo da hh mi ss ms (sign * (oh * 60 + om))
      | _ => none
    | r2 =>
      match read2 r2 with
      | some (om, []) => mkDT y mo da hh mi ss ms (sign * (oh * 60 + om))
      | _ => none

def parseOffsetPart (y mo da hh mi ss ms : Nat) (cs : List Char) : Option DT :=
  match cs with
  | [] => mkDT y mo da hh mi ss ms zoneOffsetMin
  | ['Z'] => mkDT y mo da hh mi ss ms 0
  | ['z'] => mkDT y mo da hh mi ss ms 0
  | '+' :: r => parseOffNum y mo da hh mi ss ms 1 r
  | '-' :: r => parseOffNum y mo da hh mi ss ms (-1) r
  | _ => none

def parseTimePart (y mo da : Nat) (cs : List Char) : Option DT :=
  match read2 cs with
  | none => none
  | some (hh, r1) =>
    match r1 with
    | ':' :: r2 =>
      match read2 r2 with
      | none => none
      | some (mi, r3) =>
        match r3 with
        | ':' :: r4 =>
          match read2 r4 with
          | none => none
          | some (ss, r5) =>
            match r5 with
            | '.' :: r6 =>
              match read3 r6 with
              | none => none
              | some (ms, r7) => parseOffsetPart y mo da hh mi ss ms r7
            | _ => parseOffsetPart y mo da hh mi ss 0 r5
        | _ => parseOffsetPart y mo da hh mi 0 0 r3
    | _ => none

def parseDTChars (cs : List Char) : Option DT :=
  match read4 cs with
  | none => none
  | some (y, r1) =>
    match r1 with
    | '-' :: r2 =>
      match read2 r2 with
      | none => none
      | some (mo, r3) =>
        match r3 with
        | '-' :: r4 =>
          match read2 r4 with
          | none => none
          | some (da, r5) =>
            match r5 with
            | [] => mkDT y mo da 0 0 0 0 zoneOffsetMin
            | 'T' :: r6 => parseTimePart y mo da r6
            | _ => none
        | _ => none
    | _ => none

/-- `DateTime.fromISO(s, { zone })` of the model: `none` is luxon's invalid
DateTime. -/
def parseDT (s : String) : Option DT := parseDTChars s.data

def pad2 (n : Nat) : List Char := [Char.ofNat (48 + n / 10 % 10), Char.ofNat (48 + n % 10)]

def pad3 (n : Nat) : List Char :=
  [Char.ofNat (48 + n / 100 % 10), Char.ofNat (48 + n / 10 % 10), Char.ofNat (48 + n % 10)]

def pad4 (n : Nat) : List Char :=
  [Char.ofNat (48 + n / 1000 % 10), Char.ofNat (48 + n / 100 % 10),
   Char.ofNat (48 + n / 10 % 10), Char.ofNat (48 + n % 10)]

def offsetChars (off : Int) : List Char :=
  (if off < 0 then '-' else '+') :: (pad2 (off.natAbs / 60) ++ ':' :: pad2 (off.natAbs % 60))

/-- `toISO({suppressMilliseconds: true})` of the model: milliseconds are
printed only when non-zero; the offset is the configured zone's. -/
def serializeDT (d : DT) : String :=
  ⟨pad4 d.year ++ '-' :: (pad2 d.month ++ '-' :: (pad2 d.day ++ 'T' ::
    (pad2 d.hour ++ ':' :: (pad2 d.minute ++ ':' :: (pad2 d.second ++
    ((if d.ms == 0 then [] else '.' :: pad3 d.ms) ++ offsetChars zoneOffsetMin))))))⟩

/-- `startOf("minute")`. -/
def floorMinute (d : DT) : DT := { d with second := 0, ms := 0 }

/-- `roundToMinuteISO` (scripts/ics_to_csv.js lines 218-221): parse in the
zone, floor to the minute, reserialize; `none` is the JS `null`. -/
def roundToMinuteISO (s : String) : Option String :=
  (parseDT s).map (fun d => serializeDT (floorMinute d))

/-! Facts about the date model: the serialize/parse roundtrip and the
shape of serialized timestamps. -/

theorem digitChar_props (k : Nat) (hk : k < 10) :
    (Char.ofNat (48 + k)).isDigit = true ∧ dval (Char.ofNat (48 + k)) = k ∧
    isWs (Char.ofNat (48 + k)) = false ∧ Char.ofNat (48 + k) ≠ '_' ∧
    Char.ofNat (48 + k) ≠ '!' := by
  interval_cases k <;> exact ⟨by decide, by decide, by decide, by decide, by decide⟩

theorem read2_pad2 (n : Nat) (h : n < 100) (rest : List Char) :
    read2 (pad2 n ++ rest) = some (n, rest) := by
  have h1 := digitChar_props (n / 10 % 10) (by omega)
  have h2 := digitChar_props (n % 10) (by omega)
  simp only [pad2, List.cons_append, List.nil_append, read2, h1.1, h2.1,
    Bool.and_self, if_true, h1.2.1, h2.2.1]
  have hv : n / 10 % 10 * 10 + n % 10 = n := by omega
  rw [hv]

theorem read3_pad3 (n : Nat) (h : n < 1000) (rest : List Char) :
    read3 (pad3 n ++ rest) = some (n, rest) := by
  have h1 := digitChar_props (n / 100 % 10) (by omega)
  have h2 := digitChar_props (n / 10 % 10) (by omega)
  have h3 := digitChar_props (n % 10) (by omega)
  simp only [pad3, List.cons_append, List.nil_append, read3, h1.1, h2.1, h3.1,
    Bool.and_self, if_true, h1.2.1, h2.2.1, h3.2.1]
  have hv : (n / 100 % 10 * 10 + n / 10 % 10) * 10 + n % 10 = n := by omega
  rw [hv]

theorem read4_pad4 (n : Nat) (h : n < 10000) (rest : List Char) :
    read4 (pad4 n ++ rest) = some (n, rest) := by
  have h1 := digitChar_props (n / 1000 % 10) (by omega)
  have h2 := digitChar_props (n / 100 % 10) (by omega)
  have h3 := digitChar_props (n / 10 % 10) (by omega)
  have h4 := digitChar_props (n % 10) (by omega)
  simp only [pad4, List.cons_append, List.nil_append, read4, h1.1, h2.1, h3.1, h4.1,
    Bool.and_self, if_true, h1.2.1, h2.2.1, h3.2.1, h4.2.1]
  have hv : ((n / 1000 % 10 * 10 + n / 100 % 10) * 10 + n / 10 % 10) * 10 + n % 10 = n := by
    omega
  rw [hv]

theorem daysInMonth_le (y m : Nat) : daysInMonth y m ≤ 31 := by
  unfold daysInMonth
  split
  · split <;> omega
  · split <;> omega

theorem validDT_floorMinute (d : DT) (h : validDT d = true) :
    validDT (floorMinute d) = true := by
  simp only [validDT, floorMinute, Bool.and_eq_true, decide_eq_true_eq] at h ⊢
  obtain ⟨⟨⟨⟨⟨⟨⟨⟨⟨h1, h2⟩, h3⟩, h4⟩, h5⟩, h6⟩, h7⟩, h8⟩, h9⟩, h10⟩ := h
  refine ⟨⟨⟨⟨⟨⟨⟨⟨⟨h1, h2⟩, h3⟩, h4⟩, h5⟩, h6⟩, h7⟩, h8⟩, by omega⟩, by omega⟩

theorem mkDT_some_valid {y mo da hh mi ss ms : Nat} {off : Int} {d : DT}
    (h : mkDT y mo da hh mi ss ms off = some d) : validDT d = true := by
  simp only [mkDT] at h
  split at h
  · split at h
    · rename_i hv _
      obtain rfl := Option.some_injective _ h
      exact hv
    · split at h
      · rename_i hv
        obtain rfl := Option.some_injective _ h
        exact hv
      · exact absurd h (by simp)
  · exact absurd h (by simp)

theorem parseOffNum_some_valid {y mo da hh mi ss ms : Nat} {sign : Int}
    {cs : List Char} {d : DT}
    (h : parseOffNum y mo da hh mi ss ms sign cs = some d) : validDT d = true := by
  unfold parseOffNum at h
  repeat' split at h
  all_goals first
    | exact mkDT_some_valid h
    | exact absurd h (by simp)

theorem parseOffsetPart_some_valid {y mo da hh mi ss ms : Nat}
    {cs : List Char} {d : DT}
    (h : parseOffsetPart y mo da hh mi ss ms cs = some d) : validDT d = true := by
  unfold parseOffsetPart at h
  repeat' split at h
  all_goals first
    | exact mkDT_some_valid h
    | exact parseOffNum_some_valid h
    | exact absurd h (by simp)

theorem parseTimePart_some_valid {y mo da : Nat} {cs : List Char} {d : DT}
    (h : parseTimePart y mo da cs = some d) : validDT d = true := by
  unfold parseTimePart at h
  repeat' split at h
  all_goals first
    | exact parseOffsetPart_some_valid h
    | exact absurd h (by simp)

theorem parseDT_some_valid {s : String} {d : DT}
    (h : parseDT s = some d) : validDT d = true := by
  unfold parseDT parseDTChars at h
  repeat' split at h
  all_goals first
    | exact mkDT_some_valid h
    | exact parseTimePart_some_valid h
    | exact absurd h (by simp)

theorem offsetChars_zone : offsetChars zoneOffsetMin = ['+', '0', '1', ':', '0', '0'] := by
  decide

theorem parseOffsetPart_zone (y mo da hh mi ss ms : Nat) :
    parseOffsetPart y mo da hh mi ss ms (offsetChars zoneOffsetMin)
      = mkDT y mo da hh mi ss ms 60 := by
  rw [offsetChars_zone]
  rfl

/-- The serialize/parse roundtrip on valid timestamps. -/
theorem parseDT_serializeDT (d : DT) (h : validDT d = true) :
    parseDT (serializeDT d) = some d := by
  obtain ⟨y, mo, da, hh, mi, ss, ms⟩ := d
  have hb := h
  unfold validDT at hb
  simp only [Bool.and_eq_true, decide_eq_true_eq] at hb
  obtain ⟨⟨⟨⟨⟨⟨⟨⟨⟨h1, h2⟩, h3⟩, h4⟩, h5⟩, h6⟩, h7⟩, h8⟩, h9⟩, h10⟩ := hb
  show parseDTChars _ = _
  unfold serializeDT parseDTChars
  rw [read4_pad4 y (by omega)]
  simp only
  rw [read2_pad2 mo (by omega)]
  simp only
  have hdm := daysInMonth_le y mo
  rw [read2_pad2 da (by omega)]
  simp only
  unfold parseTimePart
  rw [read2_pad2 hh (by omega)]
  simp only
  rw [read2_pad2 mi (by omega)]
  simp only
  rw [read2_pad2 ss (by omega)]
  simp only
  by_cases hms : ms = 0
  · subst hms
    simp only [beq_self_eq_true, if_true, List.nil_append]
    rw [parseOffsetPart_zone]
    unfold mkDT
    simp only [h, if_true]
    rfl
  · have hbe : (ms == 0) = false := by simpa using hms
    simp only [hbe, Bool.false_eq_true, if_false, List.cons_append]
    rw [read3_pad3 ms (by omega)]
    simp only
    rw [parseOffsetPart_zone]
    unfold mkDT
    simp only [h, if_true]
    rfl

theorem string_data_mk (l : List Char) : (String.mk l).data = l := rfl

/-- Every character of a serialized timestamp is a digit or one of the six
fixed symbols. -/
theorem serializeDT_chars (d : DT) (c : Char) (hc : c ∈ (serializeDT d).data) :
    (∃ k, k < 10 ∧ c = Char.ofNat (48 + k)) ∨
    c = '-' ∨ c = 'T' ∨ c = ':' ∨ c = '.' ∨ c = '+' := by
  have pad2case : ∀ n, c ∈ pad2 n → ∃ k, k < 10 ∧ c = Char.ofNat (48 + k) := by
    intro n hn
    simp only [pad2, List.mem_cons, List.not_mem_nil, or_false] at hn
    rcases hn with rfl | rfl
    · exact ⟨n / 10 % 10, by omega, rfl⟩
    · exact ⟨n % 10, by omega, rfl⟩
  have pad3case : ∀ n, c ∈ pad3 n → ∃ k, k < 10 ∧ c = Char.ofNat (48 + k) := by
    intro n hn
    simp only [pad3, List.mem_cons, List.not_mem_nil, or_false] at hn
    rcases hn with rfl | rfl | rfl
    · exact ⟨n / 100 % 10, by omega, rfl⟩
    · exact ⟨n / 10 % 10, by omega, rfl⟩
    · exact ⟨n % 10, by omega, rfl⟩
  have pad4case : ∀ n, c ∈ pad4 n → ∃ k, k < 10 ∧ c = Char.ofNat (48 + k) := by
    intro n hn
    simp only [pad4, List.mem_cons, List.not_mem_nil, or_false] at hn
    rcases hn with rfl | rfl | rfl | rfl
    · exact ⟨n / 1000 % 10, by omega, rfl⟩
    · exact ⟨n / 100 % 10, by omega, rfl⟩
    · exact ⟨n / 10 % 10, by omega, rfl⟩
    · exact ⟨n % 10, by omega, rfl⟩
  simp only [serializeDT, string_data_mk, List.mem_append, List.mem_cons,
    offsetChars_zone, List.not_mem_nil, or_false] at hc
  rcases hc with h | h
  · exact Or.inl (pad4case _ h)
  rcases h with rfl | h
  · simp
  rcases h with h | h
  · exact Or.inl (pad2case _ h)
  rcases h with rfl | h
  · simp
  rcases h with h | h
  · exact Or.inl (pad2case _ h)
  rcases h with rfl | h
  · simp
  rcases h with h | h
  · exact Or.inl (pad2case _ h)
  rcases h with rfl | h
  · simp
  rcases h with h | h
  · exact Or.inl (pad2case _ h)
  rcases h with rfl | h
  · simp
  rcases h with h | h
  · exact Or.inl (pad2case _ h)
  rcases h with h | h
  · by_cases hms : (d.ms == 0) = true
    · rw [if_pos hms] at h
      simp at h
    · rw [if_neg hms] at h
      simp only [List.mem_cons] at h
      rcases h with rfl | h
      · simp
      · exact Or.inl (pad3case _ h)
  · rcases h with rfl | h
    · simp
    rcases h with rfl | h
    · exact Or.inl ⟨0, by omega, by decide⟩
    rcases h with rfl | h
    · exact Or.inl ⟨1, by omega, by decide⟩
    rcases h with rfl | h
    · simp
    rcases h with rfl | rfl
    · exact Or.inl ⟨0, by omega, by decide⟩
    · exact Or.inl ⟨0, by omega, by decide⟩

theorem serializeDT_no_ws (d : DT) : ∀ c ∈ (serializeDT d).data, isWs c = false := by
  intro c hc
  rcases serializeDT_chars d c hc with ⟨k, hk, rfl⟩ | rfl | rfl | rfl | rfl | rfl
  · exact (digitChar_props k hk).2.2.1
  all_goals decide

/-- A serialized timestamp is `clean`-normal. -/
theorem clean_serializeDT (d : DT) : clean (serializeDT d) = serializeDT d :=
  clean_of_no_ws _ (serializeDT_no_ws d)

theorem serializeDT_ne_empty (d : DT) : serializeDT d ≠ "" := by
  simp [serializeDT, pad4, String.ext_iff]

theorem serializeDT_not_locked (d : DT) : isLocked (serializeDT d) = false := by
  have h0 := digitChar_props (d.year / 1000 % 10) (by omega)
  unfold isLocked
  simp only [serializeDT, string_data_mk, pad4, List.cons_append, List.dropWhile_cons,
    h0.2.2.1, Bool.false_eq_true, if_false, List.head?_cons]
  simp only [beq_eq_false_iff_ne, ne_eq, Option.some.injEq]
  exact h0.2.2.2.2

theorem serializeDT_no_underscore (d : DT) : ∀ c ∈ (serializeDT d).data, c ≠ '_' := by
  intro c hc
  rcases serializeDT_chars d c hc with ⟨k, hk, rfl⟩ | rfl | rfl | rfl | rfl | rfl
  · exact (digitChar_props k hk).2.2.2.1
  all_goals decide

/-- Rounding is stable: the output of `roundToMinuteISO` is a fixed point. -/
theorem roundToMinuteISO_idem {s t : String} (h : roundToMinuteISO s = some t) :
    roundToMinuteISO t = some t := by
  unfold roundToMinuteISO at h ⊢
  cases hp : parseDT s with
  | none => rw [hp] at h; simp at h
  | some d =>
    rw [hp] at h
    simp only [Option.map_some'] at h
    have hv : validDT d = true := parseDT_some_valid hp
    have hvf : validDT (floorMinute d) = true := validDT_floorMinute d hv
    obtain rfl : serializeDT (floorMinute d) = t := by simpa using h
    rw [parseDT_serializeDT _ hvf]
    simp only [Option.map_some', Option.some.injEq]
    rfl

/-! `slug` and the identity keys. -/

/-- JS `toLowerCase` restricted to ASCII letters and the Latin accented
capitals in the model's repertoire. -/
def jsLowerChar (c : Char) : Char :=
  if c == 'À' then 'à' else if c == 'Â' then 'â' else if c == 'Ä' then 'ä'
  else if c == 'É' then 'é' else if c == 'È' then 'è' else if c == 'Ê' then 'ê'
  else if c == 'Ë' then 'ë' else if c == 'Î' then 'î' else if c == 'Ï' then 'ï'
  else if c == 'Ô' then 'ô' else if c == 'Ö' then 'ö' else if c == 'Ù' then 'ù'
  else if c == 'Û' then 'û' else if c == 'Ü' then 'ü' else if c == 'Ç' then 'ç'
  else c.toLower

/-- `normalize("NFD").replace(/[̀-ͯ]/g, "")` for the lower-case
Latin letters in the model's repertoire: strip the accent, leave every
other character unchanged. -/
def deaccentChar (c : Char) : Char :=
  if c == 'à' || c == 'â' || c == 'ä' then 'a'
  else if c == 'é' || c == 'è' || c == 'ê' || c == 'ë' then 'e'
  else if c == 'î' || c == 'ï' then 'i'
  else if c == 'ô' || c == 'ö' then 'o'
  else if c == 'ù' || c == 'û' || c == 'ü' then 'u'
  else if c == 'ç' then 'c'
  else c

/-- A character kept by the slug (`[a-z0-9]`). -/
def isSlugKeep (c : Char) : Bool :=
  ('a' ≤ c && c ≤ 'z') || ('0' ≤ c && c ≤ '9')

/-- Scan behind `.replace(/[^a-z0-9]+/g, "-").replace(/^-+|-+$/g, "")`:
every run of dropped characters becomes one dash, leading and trailing
runs vanish. -/
def goDash : Bool → List Char → List Char
  | _, [] => []
  | pend, c :: cs =>
    if !isSlugKeep c then goDash true cs
    else if pend then '-' :: c :: goDash false cs
    else c :: goDash false cs

def slugChars (cs : List Char) : List Char :=
  goDash false (cs.dropWhile (fun c => !isSlugKeep c))

/-- `slug` (scripts/ics_to_csv.js lines 204-210): clean, lower-case, strip
accents, keep `[a-z0-9]` with dashes at gaps. -/
def slug (s : String) : String :=
  ⟨slugChars ((clean s).data.map (fun c => deaccentChar (jsLowerChar c)))⟩

/-- The JS template interpolation of a possibly-`null` string. -/
def stringifyO : Option String → String
  | some s => s
  | none => "null"

/-- `roundToMinuteISO` applied to a possibly-`null` `start_time`
(`fromISO(null)` is invalid, so `null` stays `null`). -/
def roundO (o : Option String) : Option String := o.bind roundToMinuteISO

/-- `canonicalKey` (scripts/ics_to_csv.js lines 224-229). -/
def canonicalKey (row : Row) : String :=
  slug row.name ++ "__" ++ stringifyO (roundO row.start_time) ++ "__" ++ slug row.place

/-- `keyOf` (scripts/ics_to_csv.js lines 436-440): UID when present, else
the canonical fingerprint. -/
def keyOf (row : Row) : String :=
  if clean row.id != "" then "id__" ++ clean row.id else "ck__" ++ canonicalKey row

/-! The merge pass, lifecycle filter and sort of `main`. -/

/-- The `r.start_time = roundToMinuteISO(r.start_time)` mutation at the top
of `addOrMerge`. -/
def normRow (r : Row) : Row := { r with start_time := roundO r.start_time }

/-- `addOrMerge` (scripts/ics_to_csv.js lines 527-533) over an insertion-
ordered association list, the model of the JS `Map`. -/
def addOrMerge (m : List (String × Row)) (r : Row) : List (String × Row) :=
  let r2 := normRow r
  let k := keyOf r2
  if m.any (fun p => p.1 == k) then
    m.map (fun p => if p.1 == k then (p.1, mergeRowsManualFirst p.2 r2) else p)
  else m ++ [(k, r2)]

/-- `existing.forEach(addOrMerge); incoming.forEach(addOrMerge)` starting
from an empty map. -/
def buildMap (rows : List Row) : List (String × Row) := rows.foldl addOrMerge []

/-- The values of the JS `Map`, in insertion order. -/
def mapValues (m : List (String × Row)) : List Row := m.map (fun p => p.2)

/-- Step 4 of `main` (scripts/ics_to_csv.js lines 539-546): drop rows with
an invalid start and rows past `start + REMOVAL_DELAY_HOURS`; `now` is in
epoch milliseconds, `delayH` in hours. -/
def keptRows (rows : List Row) (now delayH : Int) : List Row :=
  rows.foldl (fun acc r =>
    match r.start_time.bind parseDT with
    | none => acc
    | some d => if now ≥ toMillis d + delayH * 3600000 then acc else acc ++ [r]) []

/-- The comparator key of step 5: `new Date(r.start_time)` in epoch
milliseconds (every kept row has a parseable start). -/
def sortKeyMs (r : Row) : Int :=
  match r.start_time.bind parseDT with
  | some d => toMillis d
  | none => 0

/-- Stable insertion used to model the ECMAScript stable `Array.sort`. -/
def insertRow (x : Row) : List Row → List Row
  | [] => [x]
  | y :: ys => if sortKeyMs y ≤ sortKeyMs x then y :: insertRow x ys else x :: y :: ys

/-- `kept.sort((a, b) => new Date(a.start_time) - new Date(b.start_time))`:
any stable sort by the key models the ECMAScript stable sort. -/
def sortRows (rows : List Row) : List Row := rows.foldl (fun acc r => insertRow r acc) []

/-- Steps 3-5 of `main`: merge the store rows then the feed rows, filter by
lifecycle, sort by start time. -/
def runPipeline (existing incoming : List Row) (now delayH : Int) : List Row :=
  sortRows (keptRows (mapValues (buildMap (existing ++ incoming))) now delayH)

/-! Concrete scenario rows shared by several claims. -/

/-- The spec's end-to-end scenario store record. -/
def manualRec : Row :=
  { id := "manual_1", name := "Fest", start_time := some "2026-01-01T20:00:00+01:00",
    place := "Bourges", cover := "!poster.jpg", event_url := "", ticket_url := "" }

/-- The spec's end-to-end scenario feed record: same fingerprint as
`manualRec` but carrying its own feed identifier, as `toRowFromICS` always
produces one from the UID or the summary. -/
def feedRec : Row :=
  { id := "evt1", name := "Fest", start_time := some "2026-01-01T20:00:00+01:00",
    place := "Bourges", cover := "auto.jpg", event_url := "https://example.com/e1",
    ticket_url := "" }

/-- The feed record of the scenario carrying the store record's id, so that
`keyOf` resolves both to the same identity. -/
def feedRecSameId : Row := { feedRec with id := "manual_1" }

/-- C1 counterexample: in the spec's end-to-end scenario the two records
have equal fingerprints but `keyOf` prefers the ids (`manual_1` vs the feed
uid), so the pass emits two records; the manual record is never merged, its
cover keeps the lock marker (`"!poster.jpg"`, not `"poster.jpg"`) and its
`event_url` stays empty. -/
theorem C1_end_to_end_counterexample :
    canonicalKey (normRow manualRec) = canonicalKey (normRow feedRec) ∧
    runPipeline [manualRec] [feedRec] 0 24 = [manualRec, feedRec] ∧
    manualRec.cover = "!poster.jpg" ∧ manualRec.event_url = "" := by
  refine ⟨by decide, by decide, rfl, rfl⟩

/-- C1 (corrected): the merge of the scenario happens only when the two
records resolve to the same identity, which with a non-empty store id means
the feed entry must carry the same id; then one record is emitted with
cover `"poster.jpg"` (unlocked, manual wins) and `event_url` filled from
the feed. -/
theorem C1_end_to_end_amended :
    runPipeline [manualRec] [feedRecSameId] 0 24 =
      [{ id := "manual_1", name := "Fest", start_time := some "2026-01-01T20:00:00+01:00",
         place := "Bourges", cover := "poster.jpg",
         event_url := "https://example.com/e1", ticket_url := "" }] := by
  decide

/-- C3 counterexample: a store record whose identity matches no incoming
feed entry is emitted verbatim — its locked cover keeps the `!` marker, so
the output value differs from the unlocked value and the marker is written
back to the store. -/
theorem C3_lock_marker_counterexample :
    runPipeline [manualRec] [] 0 24 = [manualRec] ∧
    isLocked manualRec.cover = true ∧
    manualRec.cover ≠ unlock manualRec.cover := by
  refine ⟨by decide, by decide, by decide⟩

/-- C5 counterexample: the two scenario records have equal fingerprints
(same slugged title, minute-rounded start and slugged place) yet both
appear as separate output rows, because identity is resolved id-first. -/
theorem C5_one_record_counterexample :
    canonicalKey (normRow manualRec) = canonicalKey (normRow feedRec) ∧
    keyOf (normRow manualRec) ≠ keyOf (normRow feedRec) ∧
    (runPipeline [manualRec] [feedRec] 0 24).length = 2 := by
  refine ⟨by decide, by decide, by decide⟩

/-! C6: fuzzy matching.  The spec-side edit distance (Levenshtein), written
from the spec's words with explicit fuel so it evaluates in the kernel. -/

def levAux : Nat → List Char → List Char → Nat
  | 0, xs, ys => xs.length + ys.length
  | _ + 1, [], ys => ys.length
  | _ + 1, xs, [] => xs.length
  | n + 1, x :: xs, y :: ys =>
    min (min (levAux n xs (y :: ys) + 1) (levAux n (x :: xs) ys + 1))
      (levAux n xs ys + (if x == y then 0 else 1))

/-- Modelled from the spec: the edit distance between normalized titles
used by the claimed fuzzy fallback (no such fallback exists in the code). -/
def editDistance (a b : String) : Nat :=
  levAux (a.data.length + b.data.length + 1) a.data b.data

/-- An id-less store row titled `aa`. -/
def fuzzyRowA : Row :=
  { id := "", name := "aa", start_time := some "2026-01-01T20:00:00+01:00",
    place := "Bourges", cover := "", event_url := "", ticket_url := "" }

/-- An id-less incoming row titled `ab`: edit distance 1 from `aa`, same
place and minute-rounded start. -/
def fuzzyRowB : Row :=
  { id := "", name := "ab", start_time := some "2026-01-01T20:00:00+01:00",
    place := "Bourges", cover := "", event_url := "", ticket_url := "" }

/-- C6 counterexample: an incoming record at edit distance 1 from an
existing record with the same place and minute-rounded start does not
resolve to the existing record's identity — the code has no fuzzy
fallback, and two output records result. -/
theorem C6_fuzzy_counterexample :
    editDistance (slug fuzzyRowA.name) (slug fuzzyRowB.name) = 1 ∧
    fuzzyRowA.place = fuzzyRowB.place ∧
    roundO fuzzyRowA.start_time = roundO fuzzyRowB.start_time ∧
    keyOf (normRow fuzzyRowA) ≠ keyOf (normRow fuzzyRowB) ∧
    (runPipeline [fuzzyRowA] [fuzzyRowB] 0 24).length = 2 := by
  refine ⟨by decide, rfl, by decide, by decide, by decide⟩

/-- An id-less incoming row titled `Café Dansant`. -/
def cafeRow1 : Row :=
  { id := "", name := "Café Dansant", start_time := some "2026-01-01T20:00:00+01:00",
    place := "Bourges", cover := "", event_url := "", ticket_url := "" }

/-- An id-less incoming row titled `Cafe Dansant`. -/
def cafeRow2 : Row :=
  { id := "", name := "Cafe Dansant", start_time := some "2026-01-01T20:00:00+01:00",
    place := "Bourges", cover := "", event_url := "", ticket_url := "" }

/-- C6 (corrected): identity resolution is exact, not fuzzy — records
collapse when their keys coincide, which for id-less records means equal
slugged fingerprints.  `"Café Dansant"` and `"Cafe Dansant"` do collapse
to one output record, but through the accent-stripping slug (equal
fingerprints), and only because both records lack explicit ids. -/
theorem C6_fuzzy_amended :
    slug "Café Dansant" = slug "Cafe Dansant" ∧
    keyOf (normRow cafeRow1) = keyOf (normRow cafeRow2) ∧
    (runPipeline [] [cafeRow1, cafeRow2] 0 24).length = 1 := by
  refine ⟨by decide, by decide, by decide⟩

/-! `parseDescTags` (scripts/ics_to_csv.js lines 367-395): the description
directive extractor. -/

/-- The four directive targets of `parseDescTags`. -/
inductive TagField
  | coverF
  | ticketF
  | eventF
  | placeF
deriving DecidableEq, Repr

/-- The result object of `parseDescTags`: `out = {}` with fields assigned
as directives are found (`none` models an absent JS property). -/
structure Tags where
  cover : Option String := none
  coverLock : Option Bool := none
  ticket_url : Option String := none
  ticketLock : Option Bool := none
  event_url : Option String := none
  eventLock : Option Bool := none
  place : Option String := none
  placeLock : Option Bool := none
deriving DecidableEq, Repr

/-- Strip one trailing carriage return (the `\r?` of the line splitter). -/
def stripCR (l : String) : String :=
  if l.data.getLast? == some '\r' then ⟨l.data.dropLast⟩ else l

/-- Split a character list at newlines (structural, kernel-reducible). -/
def splitOnNL : List Char → List (List Char)
  | [] => [[]]
  | c :: rest =>
    match splitOnNL rest with
    | [] => [[]]
    | h :: t => if c == '\n' then [] :: h :: t else (c :: h) :: t

/-- `String(desc).split(/\r?\n/)`. -/
def splitLines (s : String) : List String :=
  (splitOnNL s.data).map (fun l => stripCR ⟨l⟩)

/-- The keyword alternation of the directive regex, in source order, with
the field each keyword feeds (the `switch` on `key.toLowerCase()`). -/
def descKeywords : List (String × TagField) :=
  [("cover", TagField.coverF), ("image", TagField.coverF), ("poster", TagField.coverF),
   ("ticket", TagField.ticketF), ("billet", TagField.ticketF), ("tickets", TagField.ticketF),
   ("event", TagField.eventF), ("link", TagField.eventF), ("url", TagField.eventF),
   ("place", TagField.placeF), ("adresse", TagField.placeF)]

/-- `\s*:\s*(.+)$` after the keyword: whitespace, a colon, and a non-empty
remainder whose trimmed form is the value (`val.trim()`). -/
def afterColon (cs : List Char) : Option String :=
  match cs.dropWhile isWs with
  | ':' :: rest => if rest.isEmpty then none else some (trimStr ⟨rest⟩)
  | _ => none

/-- Try each keyword in alternation order; on a prefix match whose colon
part fails, backtrack to the next keyword as the regex engine does.
Keyword comparison is case-insensitive. -/
def tryKeywords : List (String × TagField) → List Char → Option (TagField × String)
  | [], _ => none
  | (kw, f) :: rest, cs =>
    if (cs.take kw.data.length).map Char.toLower == kw.data then
      match afterColon (cs.drop kw.data.length) with
      | some v => some (f, v)
      | none => tryKeywords rest cs
    else tryKeywords rest cs

/-- `^\s*(!)?\s*(cover|…|adresse)\s*:\s*(.+)$` on one line: the optional
bang sets the lock flag. -/
def matchDirective (line : String) : Option (Bool × TagField × String) :=
  match line.data.dropWhile isWs with
  | '!' :: r => (tryKeywords descKeywords (r.dropWhile isWs)).map (fun fv => (true, fv.1, fv.2))
  | cs0 => (tryKeywords descKeywords cs0).map (fun fv => (false, fv.1, fv.2))

/-- The `switch` body: assign the value and the lock flag of the matched
field. -/
def applyDirective (t : Tags) : Bool × TagField × String → Tags
  | (lock, TagField.coverF, v) => { t with cover := some v, coverLock := some lock }
  | (lock, TagField.ticketF, v) => { t with ticket_url := some v, ticketLock := some lock }
  | (lock, TagField.eventF, v) => { t with event_url := some v, eventLock := some lock }
  | (lock, TagField.placeF, v) => { t with place := some v, placeLock := some lock }

/-- The `for (const raw of lines)` loop of `parseDescTags`. -/
def foldTags (lines : List String) : Tags :=
  lines.foldl (fun t line =>
    match matchDirective line with
    | none => t
    | some d => applyDirective t d) {}

/-- `parseDescTags` (scripts/ics_to_csv.js lines 367-395). -/
def parseDescTags (desc : String) : Tags := foldTags (splitLines desc)

/-- The directives of one line that feed field `f`. -/
def dirOf (f : TagField) (l : String) : Option (Bool × String) :=
  match matchDirective l with
  | some (b, f2, v) => if f2 == f then some (b, v) else none
  | none => none

/-- Modelled from the spec's words for comparison: the directive for a
field extracted from free text, here the LAST matching line (the code's
behaviour; the spec claims the first). -/
def lastDirective (desc : String) (f : TagField) : Option (Bool × String) :=
  ((splitLines desc).filterMap (dirOf f)).getLast?

/-- C7 counterexample: with two `cover:` lines the extractor returns the
value of the last matching line, not the first. -/
theorem C7_first_match_counterexample :
    (parseDescTags "cover: a\ncover: b").cover = some "b" ∧
    (some "b" : Option String) ≠ some "a" := by
  refine ⟨by decide, by decide⟩

theorem foldTags_last (lines : List String) :
    (foldTags lines).cover = ((lines.filterMap (dirOf TagField.coverF)).getLast?).map (·.2) ∧
    (foldTags lines).coverLock = ((lines.filterMap (dirOf TagField.coverF)).getLast?).map (·.1) ∧
    (foldTags lines).ticket_url = ((lines.filterMap (dirOf TagField.ticketF)).getLast?).map (·.2) ∧
    (foldTags lines).ticketLock = ((lines.filterMap (dirOf TagField.ticketF)).getLast?).map (·.1) ∧
    (foldTags lines).event_url = ((lines.filterMap (dirOf TagField.eventF)).getLast?).map (·.2) ∧
    (foldTags lines).eventLock = ((lines.filterMap (dirOf TagField.eventF)).getLast?).map (·.1) ∧
    (foldTags lines).place = ((lines.filterMap (dirOf TagField.placeF)).getLast?).map (·.2) ∧
    (foldTags lines).placeLock = ((lines.filterMap (dirOf TagField.placeF)).getLast?).map (·.1) := by
  induction lines using List.reverseRecOn with
  | nil => exact ⟨rfl, rfl, rfl, rfl, rfl, rfl, rfl, rfl⟩
  | append_singleton l x ih =>
    have hfold : foldTags (l ++ [x]) =
        (match matchDirective x with
         | none => foldTags l
         | some d => applyDirective (foldTags l) d) := by
      unfold foldTags
      rw [List.foldl_append]
      rfl
    have hfm : ∀ f, (l ++ [x]).filterMap (dirOf f) =
        l.filterMap (dirOf f) ++ (dirOf f x).toList := by
      intro f
      rw [List.filterMap_append]
      cases hd : dirOf f x <;> simp [hd]
    obtain ⟨ih1, ih2, ih3, ih4, ih5, ih6, ih7, ih8⟩ := ih
    cases hm : matchDirective x with
    | none =>
      have hdall : ∀ f, dirOf f x = none := by
        intro f
        unfold dirOf
        rw [hm]
      rw [hfold, hm]
      simp only [hfm, hdall, Option.toList_none, List.append_nil]
      exact ⟨ih1, ih2, ih3, ih4, ih5, ih6, ih7, ih8⟩
    | some d =>
      obtain ⟨b, f, v⟩ := d
      have hdf : ∀ f2, dirOf f2 x = if f == f2 then some (b, v) else none := by
        intro f2
        unfold dirOf
        rw [hm]
      rw [hfold, hm]
      cases f with
      | coverF =>
        simp only [hdf, applyDirective]
        refine ⟨?_, ?_, ?_, ?_, ?_, ?_, ?_, ?_⟩ <;>
          simp [hfm, hdf, ih1, ih2, ih3, ih4, ih5, ih6, ih7, ih8,
            List.getLast?_append]
      | ticketF =>
        simp only [hdf, applyDirective]
        refine ⟨?_, ?_, ?_, ?_, ?_, ?_, ?_, ?_⟩ <;>
          simp [hfm, hdf, ih1, ih2, ih3, ih4, ih5, ih6, ih7, ih8,
            List.getLast?_append]
      | eventF =>
        simp only [hdf, applyDirective]
        refine ⟨?_, ?_, ?_, ?_, ?_, ?_, ?_, ?_⟩ <;>
          simp [hfm, hdf, ih1, ih2, ih3, ih4, ih5, ih6, ih7, ih8,
            List.getLast?_append]
      | placeF =>
        simp only [hdf, applyDirective]
        refine ⟨?_, ?_, ?_, ?_, ?_, ?_, ?_, ?_⟩ <;>
          simp [hfm, hdf, ih1, ih2, ih3, ih4, ih5, ih6, ih7, ih8,
            List.getLast?_append]

/-- C7 (corrected): for every free text, the extractor returns for each
field the value (and lock flag) of the LAST matching directive line, not
the first. -/
theorem C7_last_match_amended (desc : String) :
    (parseDescTags desc).cover = (lastDirective desc TagField.coverF).map (·.2) ∧
    (parseDescTags desc).coverLock = (lastDirective desc TagField.coverF).map (·.1) ∧
    (parseDescTags desc).ticket_url = (lastDirective desc TagField.ticketF).map (·.2) ∧
    (parseDescTags desc).ticketLock = (lastDirective desc TagField.ticketF).map (·.1) ∧
    (parseDescTags desc).event_url = (lastDirective desc TagField.eventF).map (·.2) ∧
    (parseDescTags desc).eventLock = (lastDirective desc TagField.eventF).map (·.1) ∧
    (parseDescTags desc).place = (lastDirective desc TagField.placeF).map (·.2) ∧
    (parseDescTags desc).placeLock = (lastDirective desc TagField.placeF).map (·.1) :=
  foldTags_last (splitLines desc)

/-! C9: the lifecycle filter. -/

/-- Modelled from the spec: `isLive(record, now, graceHours)` — the start
parses to a valid timestamp and `now < start + graceHours`. -/
def isLive (r : Row) (now delayH : Int) : Bool :=
  match r.start_time.bind parseDT with
  | none => false
  | some d => decide (now < toMillis d + delayH * 3600000)

theorem keptRows_eq_filter (rows : List Row) (now delayH : Int) :
    keptRows rows now delayH = rows.filter (fun r => isLive r now delayH) := by
  unfold keptRows
  suffices h : ∀ acc, rows.foldl (fun acc r =>
      match r.start_time.bind parseDT with
      | none => acc
      | some d => if now ≥ toMillis d + delayH * 3600000 then acc else acc ++ [r]) acc
      = acc ++ rows.filter (fun r => isLive r now delayH) by
    simpa using h []
  induction rows with
  | nil => intro acc; simp
  | cons r rows ih =>
    intro acc
    simp only [List.foldl_cons, List.filter_cons]
    cases hp : r.start_time.bind parseDT with
    | none =>
      have hl : isLive r now delayH = false := by
        unfold isLive
        rw [hp]
      rw [hl]
      simp only [Bool.false_eq_true, if_false]
      exact ih acc
    | some d =>
      by_cases hc : now ≥ toMillis d + delayH * 3600000
      · have hl : isLive r now delayH = false := by
          unfold isLive
          rw [hp]
          simpa using hc
        rw [hl]
        simp only [hc, if_true, Bool.false_eq_true, if_false]
        exact ih acc
      · have hl : isLive r now delayH = true := by
          unfold isLive
          rw [hp]
          simpa using hc
        rw [hl]
        simp only [hc, if_false, if_true]
        rw [ih (acc ++ [r])]
        simp

/-- The event start `T` of the expiry scenario. -/
def expiryT : DT := ⟨2026, 1, 1, 20, 0, 0, 0⟩

/-- A feed row starting at `T`. -/
def expiryRow : Row :=
  { id := "e1", name := "Fest", start_time := some "2026-01-01T20:00:00+01:00",
    place := "", cover := "", event_url := "", ticket_url := "" }

/-- A row whose start does not parse. -/
def badStartRow : Row :=
  { id := "b1", name := "Broken", start_time := some "not-a-date",
    place := "", cover := "", event_url := "", ticket_url := "" }

/-- C9 (confirmed): the lifecycle step keeps exactly the rows whose start
parses and satisfies `now < start + delay` (unparseable starts are
excluded, not kept or crashed on); with the default 24-hour grace a record
starting at `T` is present at `now = T + 23h` and absent at
`now = T + 25h`, and an unparseable-start record is dropped. -/
theorem C9_lifecycle :
    (∀ rows now delayH, keptRows rows now delayH
      = rows.filter (fun r => isLive r now delayH)) ∧
    runPipeline [] [expiryRow] (toMillis expiryT + 23 * 3600000) 24 = [expiryRow] ∧
    runPipeline [] [expiryRow] (toMillis expiryT + 25 * 3600000) 24 = [] ∧
    runPipeline [] [badStartRow] 0 24 = [] :=
  ⟨keptRows_eq_filter, by decide, by decide, by decide⟩

/-! CSV: executable model of the papaparse subset the script uses
(`unparse` with fixed columns joined by CRLF plus a trailing newline,
`parse` with `header: true, skipEmptyLines: true`). -/

def csvHeader : String := "id,name,start_time,place,cover,event_url,ticket_url"

def csvNeedsQuote (s : String) : Bool :=
  s.data.any (fun c => c == '"' || c == ',' || c == '\r' || c == '\n')

def csvEscape (s : String) : String :=
  if csvNeedsQuote s then
    "\"" ++ ⟨s.data.foldr (fun c acc => if c == '"' then '"' :: '"' :: acc else c :: acc) []⟩ ++ "\""
  else s

/-- The seven column values of a row; papaparse prints `null` as the empty
string. -/
def rowFields (r : Row) : List String :=
  [r.id, r.name, (match r.start_time with | some s => s | none => ""),
   r.place, r.cover, r.event_url, r.ticket_url]

/-- `unparseCSV` (scripts/ics_to_csv.js lines 459-464): papaparse output
(records joined by CRLF) plus the script's trailing newline. -/
def unparseCSV (rows : List Row) : String :=
  String.intercalate "\r\n"
    (csvHeader :: rows.map (fun r => String.intercalate "," ((rowFields r).map csvEscape)))
    ++ "\n"

/-- Consume a quoted field body after its opening quote; doubled quotes are
literal quotes. -/
def takeQuoted : Nat → List Char → (List Char × List Char)
  | 0, cs => ([], cs)
  | _, [] => ([], [])
  | f + 1, c :: rest =>
    if c == '"' then
      match rest with
      | '"' :: rest2 => let p := takeQuoted f rest2; ('"' :: p.1, p.2)
      | _ => ([], rest)
    else
      let p := takeQuoted f rest
      (c :: p.1, p.2)

/-- Parse one CSV record (fields up to an end of line). -/
def csvRecord : Nat → List Char → (List String × List Char)
  | 0, _ => ([], [])
  | f + 1, cs =>
    let fr :=
      match cs with
      | '"' :: r => takeQuoted f r
      | _ =>
        (cs.takeWhile (fun c => !(c == ',' || c == '\r' || c == '\n')),
         cs.dropWhile (fun c => !(c == ',' || c == '\r' || c == '\n')))
    match fr.2 with
    | ',' :: r2 => let p := csvRecord f r2; (String.mk fr.1 :: p.1, p.2)
    | '\r' :: '\n' :: r2 => ([String.mk fr.1], r2)
    | '\n' :: r2 => ([String.mk fr.1], r2)
    | '\r' :: r2 => ([String.mk fr.1], r2)
    | [] => ([String.mk fr.1], [])
    | _ :: r2 => let p := csvRecord f r2; (String.mk fr.1 :: p.1, p.2)

/-- Parse all CSV records. -/
def csvRecords : Nat → List Char → List (List String)
  | 0, _ => []
  | _, [] => []
  | f + 1, cs =>
    let p := csvRecord (cs.length + 1) cs
    p.1 :: csvRecords f p.2

/-- Value of a named column in a record (an absent column is the JS
`undefined`, cleaned to the empty string). -/
def lookupField : List String → List String → String → String
  | [], _, _ => ""
  | h :: hs, v :: vs, name => if h == name then v else lookupField hs vs name
  | h :: hs, [], name => if h == name then "" else lookupField hs [] name

/-- `parseCSV` (scripts/ics_to_csv.js lines 445-457): parse with a header
record and skipped empty lines, clean every field, keep rows with a name
and a start. -/
def parseCSV (text : String) : List Row :=
  if trimStr text == "" then []
  else
    match (csvRecords (text.data.length + 1) text.data).filter (fun r => r != [""]) with
    | [] => []
    | header :: dataRecords =>
      (dataRecords.map (fun rec => ({
          id := clean (lookupField header rec "id"),
          name := clean (lookupField header rec "name"),
          start_time := some (clean (lookupField header rec "start_time")),
          place := clean (lookupField header rec "place"),
          cover := clean (lookupField header rec "cover"),
          event_url := clean (lookupField header rec "event_url"),
          ticket_url := clean (lookupField header rec "ticket_url") } : Row))).filter
        (fun r => r.name != "" &&
          (match r.start_time with | some s => s != "" | none => false))

/-- A feed row whose description carried a locked cover directive, as
`toRowFromICS` emits it: the cover field starts with the `!` marker. -/
def lockedFeedRow : Row :=
  { id := "evt9", name := "Soiree", start_time := some "2026-01-01T20:00:00+01:00",
    place := "Bourges", cover := "!https://x.org/kx.jpg", event_url := "", ticket_url := "" }

/-- C4 counterexample: with an empty store and a feed entry carrying a
locked cover directive, the first run writes the marker (`!…`) to the
store; the second run merges the stored row with the same feed entry and
unlocks it, so the second run's bytes differ from the first run's. -/
theorem C4_idempotence_counterexample :
    unparseCSV (runPipeline
      (parseCSV (unparseCSV (runPipeline (parseCSV "") [lockedFeedRow] 0 24)))
      [lockedFeedRow] 0 24)
    ≠ unparseCSV (runPipeline (parseCSV "") [lockedFeedRow] 0 24) := by
  decide

/-! Machinery for the idempotence and unique-identity theorems: closed
forms of the merge operations on lock-free, whitespace-normal values. -/

/-- A value `clean` leaves unchanged and that carries no lock marker. -/
def goodStr (s : String) : Bool := (clean s == s) && !isLocked s

/-- `goodStr` lifted to the possibly-`null` `start_time`. -/
def goodOStr : Option String → Bool
  | none => true
  | some s => goodStr s

/-- All fields of the row are lock-free and whitespace-normal. -/
def goodRow (r : Row) : Bool :=
  goodStr r.id && goodStr r.name && goodOStr r.start_time && goodStr r.place &&
  goodStr r.cover && goodStr r.event_url && goodStr r.ticket_url

theorem goodStr_clean {s : String} (h : goodStr s = true) : clean s = s := by
  simp only [goodStr, Bool.and_eq_true, beq_iff_eq] at h
  exact h.1

theorem goodStr_unlocked {s : String} (h : goodStr s = true) : isLocked s = false := by
  simp only [goodStr, Bool.and_eq_true, Bool.not_eq_true'] at h
  exact h.2

theorem goodStr_empty : goodStr "" = true := by decide

theorem isLocked_clean (s : String) : isLocked (clean s) = isLocked s := by
  unfold isLocked clean cleanChars
  rw [string_data_mk]
  rw [goWs_head_not_ws _ (fun d t hdt => dropWhile_cons_not hdt)]
  cases hdw : s.data.dropWhile isWs with
  | nil => rfl
  | cons c t =>
    have hc : isWs c = false := dropWhile_cons_not hdw
    simp only [goWs, hc, Bool.false_eq_true, if_false, List.head?_cons]

theorem goodStr_of_clean_unlocked {s : String} (h1 : clean s = s)
    (h2 : isLocked s = false) : goodStr s = true := by
  simp [goodStr, h1, h2]

/-- `clean` output is always `goodStr` when the input is unlocked. -/
theorem goodStr_clean_of_unlocked {s : String} (h : isLocked s = false) :
    goodStr (clean s) = true :=
  goodStr_of_clean_unlocked (clean_idem s) (by rw [isLocked_clean]; exact h)

theorem keepManual_good {a b : String} (ha : goodStr a = true) (hb : goodStr b = true) :
    keepManual a b = if a = "" then b else a := by
  unfold keepManual hasVal
  rw [goodStr_unlocked ha, goodStr_clean ha, goodStr_clean hb]
  by_cases he : a = ""
  · simp [he]
  · simp [he]

theorem preferICS_good {a b : String} (ha : goodStr a = true) (hb : goodStr b = true) :
    preferICS a b = if b = "" then a else b := by
  unfold preferICS hasVal
  rw [goodStr_unlocked ha, goodStr_clean ha, goodStr_clean hb]
  by_cases he : b = ""
  · simp [he]
  · simp [he]

theorem safeCover_good {a b : String} (ha : goodStr a = true) (hb : goodStr b = true) :
    safeCover a b = if a = "" then (if isGenericLogo b then "" else b) else a := by
  unfold safeCover
  rw [keepManual_good ha hb, goodStr_clean ha]
  by_cases he : a = ""
  · subst he
    by_cases hg : isGenericLogo b <;> simp [hg]
  · have hbe : (a == "") = false := by simpa using he
    by_cases hg : isGenericLogo a <;> simp [hg, he, hbe]

theorem preferICSStart_good {a b : Option String} (ha : goodOStr a = true)
    (hb : goodOStr b = true) :
    preferICSStart a b = some (if b.getD "" = "" then a.getD "" else b.getD "") := by
  have hca : clean (a.getD "") = a.getD "" := by
    cases a with
    | none => decide
    | some s => exact goodStr_clean ha
  have hcb : clean (b.getD "") = b.getD "" := by
    cases b with
    | none => decide
    | some s => exact goodStr_clean hb
  have hla : isLockedO a = false := by
    cases a with
    | none => rfl
    | some s => exact goodStr_unlocked ha
  unfold preferICSStart hasValO cleanO
  rw [hla, hca, hcb]
  simp only [Bool.false_eq_true, if_false]
  by_cases he : b.getD "" = ""
  · simp [he]
  · simp [he]

/-! Chains: the value a key class accumulates in the map, field by field.
The first class member is inserted verbatim, later members are folded
through the field's merge operation. -/

/-- The chain of one string field over a class of rows. -/
def chainStr (op : String → String → String) : List String → String
  | [] => ""
  | a :: bs => bs.foldl op a

/-- The chain of the `start_time` field over a class of rows. -/
def chainOpt : List (Option String) → Option String
  | [] => none
  | a :: bs => bs.foldl preferICSStart a

theorem getLastD_append {α : Type} (l1 l2 : List α) (d : α) :
    (l1 ++ l2).getLastD d = if l2.isEmpty then l1.getLastD d else l2.getLastD d := by
  induction l1 generalizing d with
  | nil =>
    cases l2 with
    | nil => rfl
    | cons x t => simp
  | cons a l1 ih =>
    rw [List.cons_append, List.getLastD_cons, ih a, List.getLastD_cons]
    by_cases h2 : l2.isEmpty
    · simp [h2]
    · simp only [h2, Bool.false_eq_true, if_false]
      cases l2 with
      | nil => simp at h2
      | cons x t => rw [List.getLastD_cons, List.getLastD_cons]

theorem filter_ne_headD_empty {l : List String}
    (h : (l.filter (fun b => b != "")).headD "" = "") :
    l.filter (fun b => b != "") = [] := by
  cases hf : l.filter (fun b => b != "") with
  | nil => rfl
  | cons x t =>
    have hx : x ∈ l.filter (fun b => b != "") := by rw [hf]; simp
    have := List.of_mem_filter hx
    rw [hf] at h
    simp only [List.headD_cons] at h
    rw [h] at this
    simp at this

theorem kmFold_char (a : String) (bs : List String) (ha : goodStr a = true)
    (hbs : ∀ b ∈ bs, goodStr b = true) :
    bs.foldl keepManual a
      = if a = "" then (bs.filter (fun b => b != "")).headD "" else a := by
  induction bs generalizing a with
  | nil => by_cases he : a = "" <;> simp [he]
  | cons b bs ih =>
    have hb := hbs b (by simp)
    have hbs2 : ∀ x ∈ bs, goodStr x = true := fun x hx => hbs x (by simp [hx])
    rw [List.foldl_cons, keepManual_good ha hb]
    by_cases he : a = ""
    · simp only [he, if_pos rfl, if_true]
      rw [ih b hb hbs2]
      by_cases hbe : b = "" <;> simp [hbe]
    · simp only [he, if_false]
      rw [ih a ha hbs2]
      simp [he]

theorem chainStr_km (l : List String) (hl : ∀ b ∈ l, goodStr b = true) :
    chainStr keepManual l = (l.filter (fun b => b != "")).headD "" := by
  cases l with
  | nil => rfl
  | cons a bs =>
    rw [chainStr, kmFold_char a bs (hl a (by simp)) (fun x hx => hl x (by simp [hx]))]
    by_cases he : a = "" <;> simp [he]

theorem paFold_char (a : String) (bs : List String) (ha : goodStr a = true)
    (hbs : ∀ b ∈ bs, goodStr b = true) :
    bs.foldl preferICS a = (bs.filter (fun b => b != "")).getLastD a := by
  induction bs generalizing a with
  | nil => rfl
  | cons b bs ih =>
    have hb := hbs b (by simp)
    have hbs2 : ∀ x ∈ bs, goodStr x = true := fun x hx => hbs x (by simp [hx])
    rw [List.foldl_cons, preferICS_good ha hb]
    by_cases hbe : b = ""
    · simp only [hbe, if_pos rfl, if_true]
      rw [ih a ha hbs2]
      simp [hbe]
    · simp only [hbe, if_false]
      rw [ih b hb hbs2]
      simp only [List.filter_cons, hbe]
      have : (b != "") = true := by simpa using hbe
      rw [this]
      simp only [if_true, List.getLastD_cons]

theorem chainStr_pa (l : List String) (hl : ∀ b ∈ l, goodStr b = true) :
    chainStr preferICS l = (l.filter (fun b => b != "")).getLastD "" := by
  cases l with
  | nil => rfl
  | cons a bs =>
    rw [chainStr, paFold_char a bs (hl a (by simp)) (fun x hx => hl x (by simp [hx]))]
    by_cases he : a = ""
    · simp [he]
    · have h1 : (a != "") = true := by simpa using he
      simp only [List.filter_cons, h1, if_true, List.getLastD_cons]

theorem scFold_char (a : String) (bs : List String) (ha : goodStr a = true)
    (hbs : ∀ b ∈ bs, goodStr b = true) :
    bs.foldl safeCover a
      = if a = "" then (bs.filter (fun b => b != "" && !isGenericLogo b)).headD "" else a := by
  induction bs generalizing a with
  | nil => by_cases he : a = "" <;> simp [he]
  | cons b bs ih =>
    have hb := hbs b (by simp)
    have hbs2 : ∀ x ∈ bs, goodStr x = true := fun x hx => hbs x (by simp [hx])
    rw [List.foldl_cons, safeCover_good ha hb]
    by_cases he : a = ""
    · simp only [he, if_pos rfl, if_true]
      by_cases hg : isGenericLogo b
      · simp only [hg, if_true]
        rw [ih "" goodStr_empty hbs2]
        simp [hg]
      · simp only [hg, Bool.false_eq_true, if_false]
        rw [ih b hb hbs2]
        by_cases hbe : b = "" <;> simp [hbe, hg]
    · simp only [he, if_false]
      rw [ih a ha hbs2]
      simp [he]

theorem stFold_char (a : Option String) (bs : List (Option String))
    (ha : goodOStr a = true) (hbs : ∀ b ∈ bs, goodOStr b = true) :
    bs.foldl preferICSStart a
      = if bs.isEmpty then a
        else some ((((a :: bs).map (fun o => o.getD "")).filter
          (fun s => s != "")).getLastD "") := by
  induction bs generalizing a with
  | nil => rfl
  | cons b bs ih =>
    have hb := hbs b (by simp)
    have hbs2 : ∀ x ∈ bs, goodOStr x = true := fun x hx => hbs x (by simp [hx])
    rw [List.foldl_cons, preferICSStart_good ha hb]
    have hvg : goodOStr (some (if b.getD "" = "" then a.getD "" else b.getD "")) = true := by
      show goodStr _ = true
      by_cases hbe : b.getD "" = ""
      · simp only [hbe, if_true]
        cases a with
        | none => exact goodStr_empty
        | some s => exact ha
      · simp only [hbe, if_false]
        cases b with
        | none => exact goodStr_empty
        | some s => exact hb
    rw [ih _ hvg hbs2]
    cases bs with
    | nil =>
      simp only [List.isEmpty_nil, if_true, List.isEmpty_cons, List.map_cons,
        List.map_nil, Option.getD_some]
      by_cases hbe : b.getD "" = ""
      · simp only [hbe, if_true]
        by_cases hae : a.getD "" = ""
        · simp [hae, hbe]
        · have h1 : (a.getD "" != "") = true := by simpa using hae
          simp [hae, hbe, h1]
      · have h1 : (b.getD "" != "") = true := by simpa using hbe
        simp [hbe, h1, getLastD_append]
    | cons c cs =>
      simp only [List.isEmpty_cons, Bool.false_eq_true, if_false, List.map_cons,
        Option.getD_some]
      congr 1
      by_cases hbe : b.getD "" = ""
      · simp only [hbe, if_pos rfl, if_true]
        by_cases hae : a.getD "" = ""
        · simp [hae, hbe]
        · have h1 : (a.getD "" != "") = true := by simpa using hae
          simp [hae, hbe, h1]
      · have h1 : (b.getD "" != "") = true := by simpa using hbe
        simp only [if_neg hbe, List.map_cons, Option.getD_some, List.filter_cons, h1, if_true]
        by_cases hae : a.getD "" = ""
        · have h2 : (a.getD "" != "") = false := by simpa using hae
          simp only [h2, Bool.false_eq_true, if_false, List.getLastD_cons]
        · have h2 : (a.getD "" != "") = true := by simpa using hae
          simp only [h2, if_true, List.getLastD_cons]

theorem getLastD_of_ne_nil {α : Type} {l : List α} (h : l ≠ []) (d1 d2 : α) :
    l.getLastD d1 = l.getLastD d2 := by
  cases l with
  | nil => exact absurd rfl h
  | cons x t => rw [List.getLastD_cons, List.getLastD_cons]

theorem filterp_headD_empty {l : List String} {p : String → Bool}
    (hp : ∀ x, p x = true → x ≠ "")
    (h : (l.filter p).headD "" = "") : l.filter p = [] := by
  cases hf : l.filter p with
  | nil => rfl
  | cons x t =>
    have hx : x ∈ l.filter p := by rw [hf]; simp
    have hpx := List.of_mem_filter hx
    rw [hf] at h
    simp only [List.headD_cons] at h
    exact absurd h (hp x hpx)

theorem goodStr_headD_filter (l : List String) (p : String → Bool)
    (hl : ∀ b ∈ l, goodStr b = true) :
    goodStr ((l.filter p).headD "") = true := by
  cases hf : l.filter p with
  | nil => exact goodStr_empty
  | cons x t =>
    have hx : x ∈ l.filter p := by rw [hf]; simp
    rw [List.headD_cons]
    exact hl x (List.mem_of_mem_filter hx)

theorem goodStr_getLastD_filter (l : List String) (p : String → Bool)
    (hl : ∀ b ∈ l, goodStr b = true) :
    goodStr ((l.filter p).getLastD "") = true := by
  cases hf : l.filter p with
  | nil => exact goodStr_empty
  | cons x t =>
    have hmem : (x :: t).getLastD "" ∈ x :: t := by
      rw [List.getLastD_cons]
      exact List.getLastD_mem_cons t x
    have : (x :: t).getLastD "" ∈ l.filter p := by rw [hf]; exact hmem
    exact hl _ (List.mem_of_mem_filter this)

theorem chainStr_km_good (l : List String) (hl : ∀ b ∈ l, goodStr b = true) :
    goodStr (chainStr keepManual l) = true := by
  rw [chainStr_km l hl]
  exact goodStr_headD_filter l _ hl

theorem chainStr_pa_good (l : List String) (hl : ∀ b ∈ l, goodStr b = true) :
    goodStr (chainStr preferICS l) = true := by
  rw [chainStr_pa l hl]
  exact goodStr_getLastD_filter l _ hl

theorem chainStr_sc_good (l : List String) (hl : ∀ b ∈ l, goodStr b = true) :
    goodStr (chainStr safeCover l) = true := by
  cases l with
  | nil => exact goodStr_empty
  | cons a bs =>
    rw [chainStr, scFold_char a bs (hl a (by simp)) (fun x hx => hl x (by simp [hx]))]
    by_cases he : a = ""
    · simp only [he, if_pos rfl, if_true]
      exact goodStr_headD_filter bs _ (fun x hx => hl x (by simp [hx]))
    · simp only [he, if_false]
      exact hl a (by simp)

theorem su_good {o : Option String} (h : goodOStr o = true) : goodStr (o.getD "") = true := by
  cases o with
  | none => exact goodStr_empty
  | some s => exact h

theorem chainOpt_good (l : List (Option String)) (hl : ∀ o ∈ l, goodOStr o = true) :
    goodOStr (chainOpt l) = true := by
  cases l with
  | nil => rfl
  | cons a bs =>
    rw [chainOpt, stFold_char a bs (hl a (by simp)) (fun x hx => hl x (by simp [hx]))]
    cases bs with
    | nil => exact hl a (by simp)
    | cons c cs =>
      show goodStr _ = true
      exact goodStr_getLastD_filter _ _ (fun x hx => by
        obtain ⟨o, ho, rfl⟩ := List.mem_map.mp hx
        exact su_good (hl o ho))

/-! Refolding a class chain over its feed suffix is the identity: the core
of run-to-run stability. -/

theorem km_refold (l1 l2 : List String) (h : ∀ b ∈ l1 ++ l2, goodStr b = true) :
    l2.foldl keepManual (chainStr keepManual (l1 ++ l2)) = chainStr keepManual (l1 ++ l2) := by
  have h2 : ∀ b ∈ l2, goodStr b = true := fun b hb => h b (by simp [hb])
  have hVg := chainStr_km_good _ h
  rw [kmFold_char _ l2 hVg h2]
  by_cases hv : chainStr keepManual (l1 ++ l2) = ""
  · have hv2 := hv
    rw [chainStr_km _ h] at hv2
    have hfe := filterp_headD_empty (p := fun b => b != "") (fun x hx => by simpa using hx) hv2
    rw [List.filter_append] at hfe
    have h0 : l2.filter (fun b => b != "") = [] := (List.append_eq_nil.mp hfe).2
    rw [if_pos hv, h0, hv]
    rfl
  · simp [hv]

theorem pa_refold (l1 l2 : List String) (h : ∀ b ∈ l1 ++ l2, goodStr b = true) :
    l2.foldl preferICS (chainStr preferICS (l1 ++ l2)) = chainStr preferICS (l1 ++ l2) := by
  have h2 : ∀ b ∈ l2, goodStr b = true := fun b hb => h b (by simp [hb])
  have hVg := chainStr_pa_good _ h
  rw [paFold_char _ l2 hVg h2]
  cases hf : l2.filter (fun b => b != "") with
  | nil => rfl
  | cons x t =>
    rw [List.getLastD_cons]
    rw [chainStr_pa _ h, List.filter_append, getLastD_append, hf]
    simp only [List.isEmpty_cons, Bool.false_eq_true, if_false, List.getLastD_cons]

theorem sc_refold (l1 l2 : List String) (h : ∀ b ∈ l1 ++ l2, goodStr b = true) :
    l2.foldl safeCover (chainStr safeCover (l1 ++ l2)) = chainStr safeCover (l1 ++ l2) := by
  have h2 : ∀ b ∈ l2, goodStr b = true := fun b hb => h b (by simp [hb])
  have hVg := chainStr_sc_good _ h
  rw [scFold_char _ l2 hVg h2]
  by_cases hv : chainStr safeCover (l1 ++ l2) = ""
  · have hall : ∀ b ∈ l1 ++ l2, b = "" ∨ isGenericLogo b = true := by
      cases hl12 : l1 ++ l2 with
      | nil => simp
      | cons a bs =>
        rw [hl12] at hv h
        rw [chainStr, scFold_char a bs (h a (by simp)) (fun x hx => h x (by simp [hx]))] at hv
        by_cases he : a = ""
        · simp only [he, if_pos rfl, if_true] at hv
          have hfg : bs.filter (fun b => b != "" && !isGenericLogo b) = [] :=
            filterp_headD_empty (fun x hx => by
              simp only [Bool.and_eq_true, bne_iff_ne, ne_eq] at hx
              exact hx.1) hv
          intro b hb
          rcases List.mem_cons.mp hb with rfl | hb2
          · exact Or.inl he
          · have := List.filter_eq_nil_iff.mp hfg b hb2
            simp only [Bool.and_eq_true, not_and, Bool.not_eq_true', bne_iff_ne, ne_eq] at this
            by_cases hbe : b = ""
            · exact Or.inl hbe
            · exact Or.inr (by simpa using this hbe)
        · rw [if_neg he] at hv
          exact absurd hv he
    have h0 : l2.filter (fun b => b != "" && !isGenericLogo b) = [] := by
      rw [List.filter_eq_nil_iff]
      intro b hb
      rcases hall b (by simp [hb]) with rfl | hg
      · simp
      · simp [hg]
    simp [hv, h0]
  · simp [hv]

/-- Uniform closed form of the `start_time` chain: except for the
single-`null` class, the chain is the last non-empty rounded start. -/
theorem chainOpt_char (a : Option String) (bs : List (Option String))
    (h : ∀ o ∈ a :: bs, goodOStr o = true) (hor : a ≠ none ∨ bs ≠ []) :
    chainOpt (a :: bs)
      = some ((((a :: bs).map (fun o => o.getD "")).filter (fun s => s != "")).getLastD "") := by
  rw [chainOpt, stFold_char a bs (h a (by simp)) (fun x hx => h x (by simp [hx]))]
  cases bs with
  | nil =>
    rcases hor with ha | hbs
    · cases a with
      | none => exact absurd rfl ha
      | some s =>
        simp only [List.isEmpty_nil, if_true, List.map_cons, List.map_nil,
          Option.getD_some, List.filter_cons, List.filter_nil]
        by_cases hse : s = ""
        · simp [hse]
        · have h1 : (s != "") = true := by simpa using hse
          simp [h1]
    · exact absurd rfl hbs
  | cons c cs =>
    simp only [List.isEmpty_cons, Bool.false_eq_true, if_false]

theorem st_refold (l1 l2 : List (Option String)) (h : ∀ o ∈ l1 ++ l2, goodOStr o = true)
    (t : String) (ht : chainOpt (l1 ++ l2) = some t) (htne : t ≠ "") :
    l2.foldl preferICSStart (chainOpt (l1 ++ l2)) = chainOpt (l1 ++ l2) := by
  cases hl2 : l2 with
  | nil => rfl
  | cons b bs =>
    rw [← hl2]
    have hemp : l2.isEmpty = false := by rw [hl2]; rfl
    have h2 : ∀ o ∈ l2, goodOStr o = true := fun o ho => h o (by simp [ho])
    have hVg : goodOStr (chainOpt (l1 ++ l2)) = true := chainOpt_good _ h
    rw [ht] at hVg ⊢
    rw [stFold_char (some t) l2 hVg h2]
    simp only [hemp, Bool.false_eq_true, if_false]
    simp only [List.map_cons, Option.getD_some]
    have htb : (t != "") = true := by simpa using htne
    simp only [List.filter_cons, htb, if_true, List.getLastD_cons]
    -- reduce the goal to the last non-empty of the feed part
    cases hl12 : l1 ++ l2 with
    | nil =>
      rw [hl12] at ht
      simp [chainOpt] at ht
    | cons a cs =>
      have hh : ∀ o ∈ a :: cs, goodOStr o = true := by rw [← hl12]; exact h
      have hor : a ≠ none ∨ cs ≠ [] := by
        by_cases ha : a = none
        · right
          intro hcs
          rw [hl12, ha, hcs] at ht
          simp [chainOpt] at ht
        · exact Or.inl ha
      have := chainOpt_char a cs hh hor
      rw [← hl12, ht] at this
      have htv : t = (((l1 ++ l2).map (fun o => o.getD "")).filter (fun s => s != "")).getLastD "" := by
        exact Option.some_injective _ this
      congr 1
      cases hf : (l2.map (fun o => o.getD "")).filter (fun s => s != "") with
      | nil => rfl
      | cons x xs =>
        rw [getLastD_of_ne_nil (by simp) t ""]
        rw [htv, List.map_append, List.filter_append, getLastD_append, hf]
        simp

/-! The map fold of `addOrMerge` decomposed into per-key merge chains. -/

/-- The key under which `addOrMerge` files a row (the row's start is
rounded first). -/
def keyR (r : Row) : String := keyOf (normRow r)

/-- The value accumulated at one key: later class members are merged into
the inserted first member, each with its start rounded. -/
def mergeChain (v : Row) (rs : List Row) : Row :=
  rs.foldl (fun e r => mergeRowsManualFirst e (normRow r)) v

theorem mergeChain_nil (v : Row) : mergeChain v [] = v := rfl

theorem mergeChain_cons (v : Row) (r : Row) (rs : List Row) :
    mergeChain v (r :: rs) = mergeChain (mergeRowsManualFirst v (normRow r)) rs := rfl

theorem mergeChain_fields (v : Row) (rs : List Row) :
    (mergeChain v rs).id = rs.foldl (fun a r => keepManual a r.id) v.id ∧
    (mergeChain v rs).name = rs.foldl (fun a r => preferICS a r.name) v.name ∧
    (mergeChain v rs).start_time
      = rs.foldl (fun a r => preferICSStart a (roundO r.start_time)) v.start_time ∧
    (mergeChain v rs).place = rs.foldl (fun a r => preferICS a r.place) v.place ∧
    (mergeChain v rs).cover = rs.foldl (fun a r => safeCover a r.cover) v.cover ∧
    (mergeChain v rs).event_url = rs.foldl (fun a r => keepManual a r.event_url) v.event_url ∧
    (mergeChain v rs).ticket_url = rs.foldl (fun a r => keepManual a r.ticket_url) v.ticket_url := by
  induction rs generalizing v with
  | nil => exact ⟨rfl, rfl, rfl, rfl, rfl, rfl, rfl⟩
  | cons r rs ih =>
    rw [mergeChain_cons]
    simp only [List.foldl_cons]
    exact ih (mergeRowsManualFirst v (normRow r))

/-- The class chain, field by field, as `chainStr`/`chainOpt` over the
class members' field values. -/
theorem classChain_fields (c0 : Row) (cs : List Row) :
    (mergeChain (normRow c0) cs).id = chainStr keepManual ((c0 :: cs).map (fun r => r.id)) ∧
    (mergeChain (normRow c0) cs).name = chainStr preferICS ((c0 :: cs).map (fun r => r.name)) ∧
    (mergeChain (normRow c0) cs).start_time
      = chainOpt ((c0 :: cs).map (fun r => roundO r.start_time)) ∧
    (mergeChain (normRow c0) cs).place = chainStr preferICS ((c0 :: cs).map (fun r => r.place)) ∧
    (mergeChain (normRow c0) cs).cover = chainStr safeCover ((c0 :: cs).map (fun r => r.cover)) ∧
    (mergeChain (normRow c0) cs).event_url
      = chainStr keepManual ((c0 :: cs).map (fun r => r.event_url)) ∧
    (mergeChain (normRow c0) cs).ticket_url
      = chainStr keepManual ((c0 :: cs).map (fun r => r.ticket_url)) := by
  obtain ⟨h1, h2, h3, h4, h5, h6, h7⟩ := mergeChain_fields (normRow c0) cs
  refine ⟨?_, ?_, ?_, ?_, ?_, ?_, ?_⟩
  · rw [h1, List.map_cons, chainStr, List.foldl_map]
    rfl
  · rw [h2, List.map_cons, chainStr, List.foldl_map]
    rfl
  · rw [h3, List.map_cons, chainOpt, List.foldl_map]
    rfl
  · rw [h4, List.map_cons, chainStr, List.foldl_map]
    rfl
  · rw [h5, List.map_cons, chainStr, List.foldl_map]
    rfl
  · rw [h6, List.map_cons, chainStr, List.foldl_map]
    rfl
  · rw [h7, List.map_cons, chainStr, List.foldl_map]
    rfl

theorem addOrMerge_present (m : List (String × Row)) (r : Row)
    (h : m.any (fun p => p.1 == keyR r) = true) :
    addOrMerge m r
      = m.map (fun p => if p.1 == keyR r
          then (p.1, mergeRowsManualFirst p.2 (normRow r)) else p) := by
  simp only [addOrMerge]
  rw [show keyOf (normRow r) = keyR r from rfl, h]
  simp

theorem addOrMerge_absent (m : List (String × Row)) (r : Row)
    (h : m.any (fun p => p.1 == keyR r) = false) :
    addOrMerge m r = m ++ [(keyR r, normRow r)] := by
  simp only [addOrMerge]
  rw [show keyOf (normRow r) = keyR r from rfl, h]
  simp

theorem foldl_addOrMerge_decomp_aux (n : Nat) :
    ∀ (G : List Row) (m : List (String × Row)), G.length ≤ n →
    G.foldl addOrMerge m =
      m.map (fun p => (p.1, mergeChain p.2 (G.filter (fun r => keyR r == p.1)))) ++
      buildMap (G.filter (fun r => !(m.any (fun q => q.1 == keyR r)))) := by
  induction n with
  | zero =>
    intro G m hlen
    match G with
    | [] =>
      simp only [List.foldl_nil, List.filter_nil, buildMap, List.append_nil]
      have he : (fun p : String × Row => (p.1, mergeChain p.2 [])) = fun p => p := by
        funext p
        rfl
      rw [he]
      exact (List.map_id' m).symm
  | succ n ih =>
  intro G m hlen
  match G with
  | [] =>
    simp only [List.foldl_nil, List.filter_nil, buildMap, List.append_nil]
    have he : (fun p : String × Row => (p.1, mergeChain p.2 [])) = fun p => p := by
      funext p
      rfl
    rw [he]
    exact (List.map_id' m).symm
  | r :: G2 =>
    cases hpres : m.any (fun q => q.1 == keyR r) with
    | true =>
      rw [List.foldl_cons, addOrMerge_present m r hpres,
        ih G2 _ (by simp only [List.length_cons] at hlen; omega)]
      congr 1
      · rw [List.map_map]
        apply List.map_congr_left
        intro p hp
        simp only [Function.comp_apply]
        by_cases hpk : (p.1 == keyR r) = true
        · have hke : (keyR r == p.1) = true := by
            rw [beq_iff_eq] at hpk ⊢
            exact hpk.symm
          simp only [hpk, if_true, List.filter_cons, hke, if_true]
          rfl
        · have hpk2 : (p.1 == keyR r) = false := by simpa using hpk
          have hke : (keyR r == p.1) = false := by
            rw [beq_eq_false_iff_ne] at hpk2 ⊢
            exact fun hcon => hpk2 hcon.symm
          simp only [hpk2, Bool.false_eq_true, if_false, List.filter_cons, hke,
            Bool.false_eq_true]
      · have hfst : ∀ p : String × Row,
            ((if p.1 == keyR r then (p.1, mergeRowsManualFirst p.2 (normRow r)) else p)).1
              = p.1 := by
          intro p
          by_cases hpk : (p.1 == keyR r) = true <;> simp [hpk]
        have hany : ∀ r' : Row,
            ((m.map (fun p => if p.1 == keyR r
              then (p.1, mergeRowsManualFirst p.2 (normRow r)) else p)).any
                (fun q => q.1 == keyR r'))
              = m.any (fun q => q.1 == keyR r') := by
          intro r'
          rw [List.any_map]
          exact congrArg m.any (funext fun q => by
            simp only [Function.comp_apply]
            rw [hfst q])
        have hfr : (!(m.any (fun q => q.1 == keyR r))) = false := by
          rw [hpres]
          rfl
        rw [List.filter_congr (fun r' _ => by rw [hany r'])]
        rw [List.filter_cons, hfr]
        simp only [Bool.false_eq_true, if_false]
    | false =>
      rw [List.foldl_cons, addOrMerge_absent m r hpres,
        ih G2 _ (by simp only [List.length_cons] at hlen; omega)]
      rw [List.map_append]
      have hmkey : ∀ p ∈ m, (keyR r == p.1) = false := by
        intro p hp
        rw [beq_eq_false_iff_ne]
        intro hcon
        have : m.any (fun q => q.1 == keyR r) = true :=
          List.any_eq_true.mpr ⟨p, hp, by rw [beq_iff_eq]; exact hcon.symm⟩
        rw [hpres] at this
        exact absurd this (by simp)
      -- the retained-entries part: the fresh row touches no existing entry
      have hmpart :
          m.map (fun p => (p.1, mergeChain p.2 (G2.filter (fun x => keyR x == p.1))))
            = m.map (fun p => (p.1, mergeChain p.2 ((r :: G2).filter (fun x => keyR x == p.1)))) := by
        apply List.map_congr_left
        intro p hp
        rw [List.filter_cons, hmkey p hp]
        simp only [Bool.false_eq_true, if_false]
      -- the new part of the right-hand side starts with the fresh row
      have hkept : (!(m.any (fun q => q.1 == keyR r))) = true := by
        rw [hpres]
        rfl
      have hnew : (r :: G2).filter (fun r' => !(m.any (fun q => q.1 == keyR r')))
          = r :: G2.filter (fun r' => !(m.any (fun q => q.1 == keyR r'))) := by
        rw [List.filter_cons, hkept]
        simp
      rw [hnew]
      have hbm : buildMap (r :: G2.filter (fun r' => !(m.any (fun q => q.1 == keyR r'))))
          = [(keyR r, normRow r)].map (fun p =>
              (p.1, mergeChain p.2 (G2.filter (fun x => keyR x == p.1)))) ++
            buildMap (G2.filter (fun r' => !((m ++ [(keyR r, normRow r)]).any
              (fun q => q.1 == keyR r')))) := by
        show List.foldl addOrMerge [] (r :: _) = _
        rw [List.foldl_cons, addOrMerge_absent [] r (by rfl)]
        rw [List.nil_append,
          ih (G2.filter (fun r' => !(m.any (fun q => q.1 == keyR r')))) [(keyR r, normRow r)]
            (by
              have := List.length_filter_le (fun r' => !(m.any (fun q => q.1 == keyR r'))) G2
              simp only [List.length_cons] at hlen
              omega)]
        congr 1
        · -- the fresh entry's class inside the filtered suffix is its class in the suffix
          simp only [List.map_cons, List.map_nil]
          rw [List.filter_filter]
          have hfeq : List.filter (fun a => (keyR a == keyR r) && !(m.any fun q => q.1 == keyR a)) G2
              = List.filter (fun x => keyR x == keyR r) G2 := by
            apply List.filter_congr
            intro x _
            by_cases hxk : (keyR x == keyR r) = true
            · have hx2 : ∀ q : String × Row, (q.1 == keyR x) = (q.1 == keyR r) := by
                intro q
                rw [beq_iff_eq] at hxk
                rw [hxk]
              have hmx : m.any (fun q => q.1 == keyR x) = false := by
                rw [show (fun q : String × Row => q.1 == keyR x)
                    = fun q => q.1 == keyR r from funext hx2]
                exact hpres
              simp [hxk, hmx]
            · have hxk2 : (keyR x == keyR r) = false := by simpa using hxk
              simp [hxk2]
          rw [hfeq]
        · -- the remaining fresh rows also avoid the new singleton entry
          rw [List.filter_filter]
          congr 1
          apply List.filter_congr
          intro x _
          rw [List.any_append]
          simp only [List.any_cons, List.any_nil, Bool.or_false, Bool.not_or]
          rw [Bool.and_comm]
      rw [hbm, hmpart, List.append_assoc]

theorem foldl_addOrMerge_decomp (G : List Row) (m : List (String × Row)) :
    G.foldl addOrMerge m =
      m.map (fun p => (p.1, mergeChain p.2 (G.filter (fun r => keyR r == p.1)))) ++
      buildMap (G.filter (fun r => !(m.any (fun q => q.1 == keyR r)))) :=
  foldl_addOrMerge_decomp_aux G.length G m le_rfl

theorem buildMap_cons (r : Row) (G : List Row) :
    buildMap (r :: G) =
      (keyR r, mergeChain (normRow r) (G.filter (fun x => keyR x == keyR r))) ::
      buildMap (G.filter (fun x => !(keyR r == keyR x))) := by
  show List.foldl addOrMerge [] (r :: G) = _
  rw [List.foldl_cons, addOrMerge_absent [] r (by rfl), List.nil_append,
    foldl_addOrMerge_decomp G [(keyR r, normRow r)]]
  simp only [List.map_cons, List.map_nil, List.any_cons, List.any_nil, Bool.or_false,
    List.cons_append, List.nil_append]

/-- Every map entry is the merge chain of its key class. -/
theorem buildMap_entry_aux (n : Nat) :
    ∀ (G : List Row), G.length ≤ n → ∀ (p : String × Row), p ∈ buildMap G →
    ∃ c0 cs, G.filter (fun r => keyR r == p.1) = c0 :: cs ∧
      keyR c0 = p.1 ∧ p.2 = mergeChain (normRow c0) cs := by
  induction n with
  | zero =>
    intro G hlen p hp
    match G with
    | [] => simp [buildMap] at hp
  | succ n ihn =>
  intro G hlen p hp
  match G with
  | [] => simp [buildMap] at hp
  | r :: G2 =>
    rw [buildMap_cons] at hp
    rcases List.mem_cons.mp hp with rfl | hp2
    · refine ⟨r, G2.filter (fun x => keyR x == keyR r), ?_, rfl, rfl⟩
      rw [List.filter_cons]
      simp
    · have hlen2 : (G2.filter (fun x => !(keyR r == keyR x))).length ≤ n := by
        have := List.length_filter_le (fun x => !(keyR r == keyR x)) G2
        simp only [List.length_cons] at hlen
        omega
      obtain ⟨c0, cs, hcl, hk0, hv⟩ := ihn _ hlen2 _ hp2
      have hne : (keyR r == p.1) = false := by
        have hc0mem : c0 ∈ G2.filter (fun x => !(keyR r == keyR x)) := by
          have : c0 ∈ c0 :: cs := by simp
          rw [← hcl] at this
          exact List.mem_of_mem_filter this
        have := List.of_mem_filter hc0mem
        rw [← hk0]
        simpa using this
      refine ⟨c0, cs, ?_, hk0, hv⟩
      rw [List.filter_cons, hne]
      simp only [Bool.false_eq_true, if_false]
      rw [← hcl, List.filter_filter]
      apply List.filter_congr
      intro x _
      by_cases hx : (keyR x == p.1) = true
      · have h2 : (keyR r == keyR x) = false := by
          rw [beq_iff_eq] at hx
          rw [hx]
          exact hne
        simp [hx, h2]
      · have hx2 : (keyR x == p.1) = false := by simpa using hx
        simp [hx2]

theorem buildMap_entry (G : List Row) (p : String × Row) (hp : p ∈ buildMap G) :
    ∃ c0 cs, G.filter (fun r => keyR r == p.1) = c0 :: cs ∧
      keyR c0 = p.1 ∧ p.2 = mergeChain (normRow c0) cs :=
  buildMap_entry_aux G.length G le_rfl p hp

/-- The map keys are pairwise distinct. -/
theorem buildMap_keys_nodup (G : List Row) :
    ∀ m, m.Pairwise (fun p q => p.1 ≠ q.1) →
      (G.foldl addOrMerge m).Pairwise (fun p q => p.1 ≠ q.1) := by
  induction G with
  | nil => intro m hm; exact hm
  | cons r G2 ih =>
    intro m hm
    rw [List.foldl_cons]
    cases hpres : m.any (fun q => q.1 == keyR r) with
    | true =>
      rw [addOrMerge_present m r hpres]
      apply ih
      have hfst : ∀ p : String × Row,
          ((if p.1 == keyR r then (p.1, mergeRowsManualFirst p.2 (normRow r)) else p)).1
            = p.1 := by
        intro p
        by_cases hpk : (p.1 == keyR r) = true <;> simp [hpk]
      refine List.Pairwise.map _ ?_ hm
      intro a b hab
      rw [hfst a, hfst b]
      exact hab
    | false =>
      rw [addOrMerge_absent m r hpres]
      apply ih
      rw [List.pairwise_append]
      refine ⟨hm, by simp, ?_⟩
      intro a ha b hb
      simp only [List.mem_singleton] at hb
      subst hb
      show a.1 ≠ keyR r
      intro hcon
      have : m.any (fun q => q.1 == keyR r) = true :=
        List.any_eq_true.mpr ⟨a, ha, by rw [beq_iff_eq]; exact hcon⟩
      rw [hpres] at this
      exact absurd this (by simp)

/-- Rows with pairwise distinct keys that are already normalized build the
identity map. -/
theorem buildMap_of_distinct (L : List Row)
    (hnorm : ∀ r ∈ L, normRow r = r)
    (hdis : L.Pairwise (fun a b => keyOf a ≠ keyOf b)) :
    buildMap L = L.map (fun r => (keyOf r, r)) := by
  induction L with
  | nil => rfl
  | cons r L2 ih =>
    rw [buildMap_cons]
    have hnr : normRow r = r := hnorm r (by simp)
    have hkr : keyR r = keyOf r := by rw [keyR, hnr]
    have hdis2 := (List.pairwise_cons.mp hdis).2
    have hne : ∀ x ∈ L2, (keyR x == keyR r) = false := by
      intro x hx
      have hx2 : keyR x = keyOf x := by rw [keyR, hnorm x (by simp [hx])]
      rw [hx2, hkr, beq_eq_false_iff_ne]
      exact fun hcon => ((List.pairwise_cons.mp hdis).1 x hx) hcon.symm
    have hf1 : L2.filter (fun x => keyR x == keyR r) = [] :=
      List.filter_eq_nil_iff.mpr (fun x hx => by rw [hne x hx]; simp)
    have hf2 : L2.filter (fun x => !(keyR r == keyR x)) = L2 :=
      List.filter_eq_self.mpr (fun x hx => by
        have h2 : (keyR r == keyR x) = false := by
          have := hne x hx
          rw [beq_eq_false_iff_ne] at this ⊢
          exact fun hcon => this hcon.symm
        rw [h2]
        simp)
    rw [hf1, hf2, mergeChain_nil, hkr, hnr,
      ih (fun x hx => hnorm x (by simp [hx])) hdis2, List.map_cons]

/-! Key stability: the class chain carries the class key. -/

theorem row_ext (a b : Row) (h1 : a.id = b.id) (h2 : a.name = b.name)
    (h3 : a.start_time = b.start_time) (h4 : a.place = b.place)
    (h5 : a.cover = b.cover) (h6 : a.event_url = b.event_url)
    (h7 : a.ticket_url = b.ticket_url) : a = b := by
  cases a
  cases b
  simp_all

theorem goodRow_fields {r : Row} (h : goodRow r = true) :
    goodStr r.id = true ∧ goodStr r.name = true ∧ goodOStr r.start_time = true ∧
    goodStr r.place = true ∧ goodStr r.cover = true ∧ goodStr r.event_url = true ∧
    goodStr r.ticket_url = true := by
  simp only [goodRow, Bool.and_eq_true] at h
  obtain ⟨⟨⟨⟨⟨⟨h1, h2⟩, h3⟩, h4⟩, h5⟩, h6⟩, h7⟩ := h
  exact ⟨h1, h2, h3, h4, h5, h6, h7⟩

theorem append_uu_inj {a t a2 t2 : List Char}
    (ha : ∀ c ∈ a, c ≠ '_') (ha2 : ∀ c ∈ a2, c ≠ '_')
    (h : a ++ '_' :: '_' :: t = a2 ++ '_' :: '_' :: t2) : a = a2 ∧ t = t2 := by
  induction a generalizing a2 with
  | nil =>
    cases a2 with
    | nil => simpa using h
    | cons c2 cc2 =>
      simp only [List.nil_append, List.cons_append, List.cons.injEq] at h
      exact absurd h.1.symm (ha2 c2 (by simp))
  | cons c cc ih =>
    cases a2 with
    | nil =>
      simp only [List.cons_append, List.nil_append, List.cons.injEq] at h
      exact absurd h.1 (ha c (by simp))
    | cons c2 cc2 =>
      simp only [List.cons_append, List.cons.injEq] at h
      obtain ⟨rfl, h2⟩ := h
      obtain ⟨he, ht⟩ := ih (fun x hx => ha x (by simp [hx]))
        (fun x hx => ha2 x (by simp [hx])) h2
      exact ⟨by rw [he], ht⟩

theorem string_append_data (a b : String) : (a ++ b).data = a.data ++ b.data :=
  String.data_append a b

theorem goDash_mem {c : Char} : ∀ {pend : Bool} {cs : List Char},
    c ∈ goDash pend cs → c = '-' ∨ isSlugKeep c = true := by
  intro pend cs
  induction cs generalizing pend with
  | nil => intro h; simp [goDash] at h
  | cons x xs ih =>
    intro h
    rw [goDash] at h
    by_cases hx : isSlugKeep x
    · simp only [hx, Bool.not_true, Bool.false_eq_true, if_false] at h
      cases pend with
      | false =>
        simp only [Bool.false_eq_true, if_false, List.mem_cons] at h
        rcases h with rfl | h2
        · exact Or.inr hx
        · exact ih h2
      | true =>
        simp only [if_true, List.mem_cons] at h
        rcases h with rfl | rfl | h2
        · exact Or.inl rfl
        · exact Or.inr hx
        · exact ih h2
    · simp only [hx, Bool.not_false, if_true] at h
      exact ih h

theorem slug_no_underscore (s : String) : ∀ c ∈ (slug s).data, c ≠ '_' := by
  intro c hc
  have := @goDash_mem c false
    ((((clean s).data.map (fun c => deaccentChar (jsLowerChar c))).dropWhile
      (fun c => !isSlugKeep c))) hc
  rcases this with rfl | hk
  · decide
  · intro hcon
    subst hcon
    exact absurd hk (by decide)

theorem stringifyO_round_no_underscore (o : Option String) :
    ∀ c ∈ (stringifyO (roundO o)).data, c ≠ '_' := by
  intro c hc
  cases o with
  | none =>
    simp only [roundO, Option.none_bind, stringifyO] at hc
    intro hcon
    subst hcon
    revert hc
    decide
  | some s =>
    simp only [roundO, Option.some_bind] at hc
    cases hp : parseDT s with
    | none =>
      rw [show roundToMinuteISO s = none by
        unfold roundToMinuteISO; rw [hp]; rfl] at hc
      intro hcon
      subst hcon
      revert hc
      decide
    | some d =>
      rw [show roundToMinuteISO s = some (serializeDT (floorMinute d)) by
        unfold roundToMinuteISO; rw [hp]; rfl] at hc
      exact serializeDT_no_underscore _ c hc

theorem canonicalKey_parts {r1 r2 : Row} (h : canonicalKey r1 = canonicalKey r2) :
    slug r1.name = slug r2.name ∧
    stringifyO (roundO r1.start_time) = stringifyO (roundO r2.start_time) ∧
    slug r1.place = slug r2.place := by
  unfold canonicalKey at h
  have hd := congrArg String.data h
  simp only [string_append_data] at hd
  simp only [List.append_assoc, List.cons_append, List.nil_append] at hd
  have h1 := append_uu_inj (slug_no_underscore r1.name) (slug_no_underscore r2.name) hd
  obtain ⟨hn, h2⟩ := h1
  have h3 := append_uu_inj (stringifyO_round_no_underscore r1.start_time)
    (stringifyO_round_no_underscore r2.start_time) h2
  obtain ⟨hs, hp⟩ := h3
  refine ⟨?_, ?_, ?_⟩
  · have : String.mk (slug r1.name).data = String.mk (slug r2.name).data :=
      congrArg String.mk hn
    simpa using this
  · have : String.mk (stringifyO (roundO r1.start_time)).data
        = String.mk (stringifyO (roundO r2.start_time)).data := congrArg String.mk hs
    simpa using this
  · have : String.mk (slug r1.place).data = String.mk (slug r2.place).data :=
      congrArg String.mk hp
    simpa using this

theorem keyOf_id_branch {r : Row} (h : clean r.id ≠ "") :
    keyOf r = "id__" ++ clean r.id := by
  unfold keyOf
  have : (clean r.id != "") = true := by simpa using h
  rw [this]
  simp

theorem keyOf_ck_branch {r : Row} (h : clean r.id = "") :
    keyOf r = "ck__" ++ canonicalKey r := by
  unfold keyOf
  rw [h]
  simp

theorem id_ck_branch_ne (a b : String) : ("id__" ++ a) ≠ ("ck__" ++ b) := by
  intro h
  have := congrArg String.data h
  simp only [string_append_data] at this
  simp at this

theorem id_branch_inj {a b : String} (h : ("id__" ++ a) = ("id__" ++ b)) : a = b := by
  have := congrArg String.data h
  simp only [string_append_data] at this
  simp only [List.cons_append, List.nil_append, List.cons.injEq, true_and] at this
  have : String.mk a.data = String.mk b.data := congrArg String.mk this
  simpa using this

theorem ck_branch_inj {a b : String} (h : ("ck__" ++ a) = ("ck__" ++ b)) : a = b := by
  have := congrArg String.data h
  simp only [string_append_data] at this
  simp only [List.cons_append, List.nil_append, List.cons.injEq, true_and] at this
  have : String.mk a.data = String.mk b.data := congrArg String.mk this
  simpa using this

theorem roundO_out (o : Option String) : roundO (roundO o) = roundO o := by
  cases o with
  | none => rfl
  | some s =>
    show roundO (roundToMinuteISO s) = roundToMinuteISO s
    cases hp : roundToMinuteISO s with
    | none => rfl
    | some t =>
      show roundToMinuteISO t = some t
      exact roundToMinuteISO_idem hp

theorem roundO_fix_good {o : Option String} (h : roundO o = o) : goodOStr o = true := by
  cases o with
  | none => rfl
  | some s =>
    have h2 : roundToMinuteISO s = some s := h
    unfold roundToMinuteISO at h2
    cases hp : parseDT s with
    | none => rw [hp] at h2; simp at h2
    | some d =>
      rw [hp] at h2
      simp only [Option.map_some'] at h2
      have hs : serializeDT (floorMinute d) = s := Option.some.inj h2
      show goodStr s = true
      rw [← hs]
      exact goodStr_of_clean_unlocked (clean_serializeDT _) (serializeDT_not_locked _)

theorem canonicalKey_normRow (r : Row) : canonicalKey (normRow r) = canonicalKey r := by
  show slug r.name ++ "__" ++ stringifyO (roundO (roundO r.start_time)) ++ "__" ++ slug r.place
      = slug r.name ++ "__" ++ stringifyO (roundO r.start_time) ++ "__" ++ slug r.place
  rw [roundO_out]

theorem chainStr_km_const (l : List String) (u : String) (hg : ∀ b ∈ l, goodStr b = true)
    (hall : ∀ b ∈ l, b = u) (hne : l ≠ []) (hu : u ≠ "") :
    chainStr keepManual l = u := by
  rw [chainStr_km l hg]
  have hf : l.filter (fun b => b != "") = l := by
    rw [List.filter_eq_self]
    intro b hb
    rw [hall b hb]
    simpa using hu
  rw [hf]
  cases l with
  | nil => exact absurd rfl hne
  | cons x xs =>
    simp only [List.headD_cons]
    exact hall x (by simp)

theorem chainStr_km_empty (l : List String) (hall : ∀ b ∈ l, b = "") :
    chainStr keepManual l = "" := by
  have hg : ∀ b ∈ l, goodStr b = true := fun b hb => by
    rw [hall b hb]; exact goodStr_empty
  rw [chainStr_km l hg]
  have hf : l.filter (fun b => b != "") = [] := by
    rw [List.filter_eq_nil_iff]
    intro b hb
    rw [hall b hb]
    simp
  rw [hf]
  rfl

theorem slug_chain_pa (l : List String) (nh : String)
    (hg : ∀ b ∈ l, goodStr b = true) (hs : ∀ b ∈ l, slug b = nh) (hne : l ≠ []) :
    slug (chainStr preferICS l) = nh := by
  rw [chainStr_pa l hg]
  cases hf : l.filter (fun b => b != "") with
  | nil =>
    cases l with
    | nil => exact absurd rfl hne
    | cons x xs =>
      have hx0 : x = "" := by
        have := List.filter_eq_nil_iff.mp hf x (by simp)
        simpa using this
      have hxn := hs x (by simp)
      rw [hx0] at hxn
      simpa using hxn
  | cons x xs =>
    rw [List.getLastD_cons]
    have hmem : xs.getLastD x ∈ x :: xs := List.getLastD_mem_cons xs x
    rw [← hf] at hmem
    exact hs _ (List.mem_of_mem_filter hmem)

theorem stringify_chainOpt (l : List (Option String)) (sh : String)
    (hr : ∀ o ∈ l, roundO o = o) (hs : ∀ o ∈ l, stringifyO o = sh) (hne : l ≠ []) :
    stringifyO (roundO (chainOpt l)) = sh := by
  have hg : ∀ o ∈ l, goodOStr o = true := fun o ho => roundO_fix_good (hr o ho)
  cases l with
  | nil => exact absurd rfl hne
  | cons a bs =>
    cases bs with
    | nil =>
      show stringifyO (roundO a) = sh
      rw [hr a (by simp)]
      exact hs a (by simp)
    | cons c cs =>
      rw [chainOpt_char a (c :: cs) hg (Or.inr (by simp))]
      cases hf : ((a :: c :: cs).map (fun o => o.getD "")).filter (fun s => s != "") with
      | nil =>
        have hanone : a = none := by
          have hsu : a.getD "" = "" := by
            have := List.filter_eq_nil_iff.mp hf (a.getD "")
              (List.mem_map_of_mem _ (by simp))
            simpa using this
          cases a with
          | none => rfl
          | some s =>
            simp only [Option.getD_some] at hsu
            subst hsu
            have hcon := hr (some "") (by simp)
            exact absurd hcon (by decide)
        simp only [List.getLastD_nil]
        have h1 : roundO (some "") = none := by decide
        rw [h1]
        have := hs a (by simp)
        rw [hanone] at this
        exact this
      | cons x xs =>
        rw [List.getLastD_cons]
        have hmem : xs.getLastD x ∈ x :: xs := List.getLastD_mem_cons xs x
        rw [← hf] at hmem
        have hne2 : xs.getLastD x ≠ "" := by
          have := List.of_mem_filter hmem
          simpa using this
        obtain ⟨o, hol, hov⟩ := List.mem_map.mp (List.mem_of_mem_filter hmem)
        have hosome : o = some (xs.getLastD x) := by
          cases o with
          | none => exact absurd (show xs.getLastD x = "" from hov.symm) hne2
          | some s => rw [Option.getD_some] at hov; rw [hov]
        rw [hosome] at hol
        rw [hr _ hol]
        have := hs _ hol
        simpa using this

theorem chain_keyOf (c0 : Row) (cs : List Row)
    (hg : ∀ r ∈ c0 :: cs, goodRow r = true)
    (hk : ∀ r ∈ c0 :: cs, keyR r = keyR c0) :
    keyOf (mergeChain (normRow c0) cs) = keyR c0 := by
  obtain ⟨hid, hname, hstart, hplace, hcover, heu, htu⟩ := classChain_fields c0 cs
  have hgf : ∀ r ∈ c0 :: cs, clean r.id = r.id := fun r hr =>
    goodStr_clean (goodRow_fields (hg r hr)).1
  by_cases h0 : c0.id = ""
  · have hckc0 : keyR c0 = "ck__" ++ canonicalKey (normRow c0) := by
      unfold keyR
      exact keyOf_ck_branch (show clean c0.id = "" by rw [hgf c0 (by simp)]; exact h0)
    have hall0 : ∀ r ∈ c0 :: cs, r.id = "" := by
      intro r hr
      by_contra hne
      have hcr : clean r.id ≠ "" := by rw [hgf r hr]; exact hne
      have hkr := hk r hr
      have h1 : keyR r = "id__" ++ clean r.id := by
        unfold keyR
        exact keyOf_id_branch (show clean r.id ≠ "" from hcr)
      rw [h1, hckc0] at hkr
      exact id_ck_branch_ne _ _ hkr
    have hck : ∀ r ∈ c0 :: cs, canonicalKey r = canonicalKey c0 := by
      intro r hr
      have hkr := hk r hr
      have h1 : keyR r = "ck__" ++ canonicalKey (normRow r) := by
        unfold keyR
        exact keyOf_ck_branch (show clean r.id = "" by rw [hgf r hr]; exact hall0 r hr)
      rw [h1, hckc0] at hkr
      have h2 := ck_branch_inj hkr
      rw [canonicalKey_normRow, canonicalKey_normRow] at h2
      exact h2
    have hparts : ∀ r ∈ c0 :: cs,
        slug r.name = slug c0.name ∧
        stringifyO (roundO r.start_time) = stringifyO (roundO c0.start_time) ∧
        slug r.place = slug c0.place :=
      fun r hr => canonicalKey_parts (hck r hr)
    have hvid : (mergeChain (normRow c0) cs).id = "" := by
      rw [hid]
      apply chainStr_km_empty
      intro b hb
      obtain ⟨r, hr, rfl⟩ := List.mem_map.mp hb
      exact hall0 r hr
    have hvname : slug (mergeChain (normRow c0) cs).name = slug c0.name := by
      rw [hname]
      refine slug_chain_pa _ _ ?_ ?_ (by simp)
      · intro b hb
        obtain ⟨r, hr, rfl⟩ := List.mem_map.mp hb
        exact (goodRow_fields (hg r hr)).2.1
      · intro b hb
        obtain ⟨r, hr, rfl⟩ := List.mem_map.mp hb
        exact (hparts r hr).1
    have hvstart : stringifyO (roundO (mergeChain (normRow c0) cs).start_time)
        = stringifyO (roundO c0.start_time) := by
      rw [hstart]
      refine stringify_chainOpt _ _ ?_ ?_ (by simp)
      · intro o ho
        obtain ⟨r, hr, rfl⟩ := List.mem_map.mp ho
        exact roundO_out _
      · intro o ho
        obtain ⟨r, hr, rfl⟩ := List.mem_map.mp ho
        exact (hparts r hr).2.1
    have hvplace : slug (mergeChain (normRow c0) cs).place = slug c0.place := by
      rw [hplace]
      refine slug_chain_pa _ _ ?_ ?_ (by simp)
      · intro b hb
        obtain ⟨r, hr, rfl⟩ := List.mem_map.mp hb
        exact (goodRow_fields (hg r hr)).2.2.2.1
      · intro b hb
        obtain ⟨r, hr, rfl⟩ := List.mem_map.mp hb
        exact (hparts r hr).2.2
    have hcv : clean (mergeChain (normRow c0) cs).id = "" := by
      rw [hvid]
      rfl
    rw [keyOf_ck_branch hcv, hckc0, canonicalKey_normRow]
    congr 1
    unfold canonicalKey
    rw [hvname, hvstart, hvplace]
  · have hc0 : clean c0.id ≠ "" := by rw [hgf c0 (by simp)]; exact h0
    have hkc0 : keyR c0 = "id__" ++ clean c0.id := by
      unfold keyR
      exact keyOf_id_branch (show clean c0.id ≠ "" from hc0)
    have hall : ∀ r ∈ c0 :: cs, r.id = c0.id := by
      intro r hr
      by_cases hre : clean r.id = ""
      · have h1 : keyR r = "ck__" ++ canonicalKey (normRow r) := by
          unfold keyR
          exact keyOf_ck_branch (show clean r.id = "" from hre)
        have hkr := hk r hr
        rw [h1, hkc0] at hkr
        exact absurd hkr.symm (id_ck_branch_ne _ _)
      · have h1 : keyR r = "id__" ++ clean r.id := by
          unfold keyR
          exact keyOf_id_branch (show clean r.id ≠ "" from hre)
        have hkr := hk r hr
        rw [h1, hkc0] at hkr
        have h2 := id_branch_inj hkr
        rw [hgf r hr, hgf c0 (by simp)] at h2
        exact h2
    have hvid : (mergeChain (normRow c0) cs).id = c0.id := by
      rw [hid]
      refine chainStr_km_const _ c0.id ?_ ?_ (by simp) h0
      · intro b hb
        obtain ⟨r, hr, rfl⟩ := List.mem_map.mp hb
        exact (goodRow_fields (hg r hr)).1
      · intro b hb
        obtain ⟨r, hr, rfl⟩ := List.mem_map.mp hb
        exact hall r hr
    have hcv : clean (mergeChain (normRow c0) cs).id ≠ "" := by
      rw [hvid, hgf c0 (by simp)]
      exact h0
    rw [keyOf_id_branch hcv, hkc0]
    congr 1
    rw [hvid, hgf c0 (by simp)]

/-- Row stability: re-merging a class chain with the feed part of its own
class is the identity, provided all class members are good and the chain
carries a live (non-empty) start. -/
theorem chain_row_stable (c0 : Row) (cs Sc Fc : List Row)
    (hsplit : Sc ++ Fc = c0 :: cs)
    (hg : ∀ r ∈ c0 :: cs, goodRow r = true)
    (t : String) (hst : (mergeChain (normRow c0) cs).start_time = some t)
    (htne : t ≠ "") :
    mergeChain (mergeChain (normRow c0) cs) Fc = mergeChain (normRow c0) cs := by
  obtain ⟨hid, hname, hstart, hplace, hcover, heu, htu⟩ := classChain_fields c0 cs
  obtain ⟨gid, gname, gstart, gplace, gcover, geu, gtu⟩ :=
    mergeChain_fields (mergeChain (normRow c0) cs) Fc
  have hmap : ∀ (f : Row → String), (c0 :: cs).map f = Sc.map f ++ Fc.map f := by
    intro f
    rw [← List.map_append, hsplit]
  have hmapO : ∀ (f : Row → Option String), (c0 :: cs).map f = Sc.map f ++ Fc.map f := by
    intro f
    rw [← List.map_append, hsplit]
  have hgood : ∀ (f : Row → String), (∀ r, goodRow r = true → goodStr (f r) = true) →
      ∀ b ∈ Sc.map f ++ Fc.map f, goodStr b = true := by
    intro f hf b hb
    rw [← hmap f] at hb
    obtain ⟨r, hr, rfl⟩ := List.mem_map.mp hb
    exact hf r (hg r hr)
  apply row_ext
  · have hkm := km_refold (Sc.map (fun r => r.id)) (Fc.map (fun r => r.id))
      (hgood _ (fun r h => (goodRow_fields h).1))
    simp only [List.foldl_map] at hkm
    rw [gid, hid, hmap (fun r => r.id)]
    exact hkm
  · have hpa := pa_refold (Sc.map (fun r => r.name)) (Fc.map (fun r => r.name))
      (hgood _ (fun r h => (goodRow_fields h).2.1))
    simp only [List.foldl_map] at hpa
    rw [gname, hname, hmap (fun r => r.name)]
    exact hpa
  · have hgoodO : ∀ o ∈ Sc.map (fun r => roundO r.start_time)
        ++ Fc.map (fun r => roundO r.start_time), goodOStr o = true := by
      intro o ho
      rw [← hmapO (fun r => roundO r.start_time)] at ho
      obtain ⟨r, hr, rfl⟩ := List.mem_map.mp ho
      exact roundO_fix_good (roundO_out _)
    have hst2 : chainOpt (Sc.map (fun r => roundO r.start_time)
        ++ Fc.map (fun r => roundO r.start_time)) = some t := by
      rw [← hmapO (fun r => roundO r.start_time), ← hstart]
      exact hst
    have hstf := st_refold (Sc.map (fun r => roundO r.start_time))
      (Fc.map (fun r => roundO r.start_time)) hgoodO t hst2 htne
    simp only [List.foldl_map] at hstf
    rw [gstart, hstart, hmapO (fun r => roundO r.start_time)]
    exact hstf
  · have hpa := pa_refold (Sc.map (fun r => r.place)) (Fc.map (fun r => r.place))
      (hgood _ (fun r h => (goodRow_fields h).2.2.2.1))
    simp only [List.foldl_map] at hpa
    rw [gplace, hplace, hmap (fun r => r.place)]
    exact hpa
  · have hsc := sc_refold (Sc.map (fun r => r.cover)) (Fc.map (fun r => r.cover))
      (hgood _ (fun r h => (goodRow_fields h).2.2.2.2.1))
    simp only [List.foldl_map] at hsc
    rw [gcover, hcover, hmap (fun r => r.cover)]
    exact hsc
  · have hkm := km_refold (Sc.map (fun r => r.event_url)) (Fc.map (fun r => r.event_url))
      (hgood _ (fun r h => (goodRow_fields h).2.2.2.2.2.1))
    simp only [List.foldl_map] at hkm
    rw [geu, heu, hmap (fun r => r.event_url)]
    exact hkm
  · have hkm := km_refold (Sc.map (fun r => r.ticket_url)) (Fc.map (fun r => r.ticket_url))
      (hgood _ (fun r h => (goodRow_fields h).2.2.2.2.2.2))
    simp only [List.foldl_map] at hkm
    rw [gtu, htu, hmap (fun r => r.ticket_url)]
    exact hkm

/-- The start of a class chain is either `roundO`-fixed or the degenerate
`some ""` (which never survives the lifecycle filter). -/
theorem chain_start_shape (c0 : Row) (cs : List Row) :
    roundO (mergeChain (normRow c0) cs).start_time = (mergeChain (normRow c0) cs).start_time ∨
    (mergeChain (normRow c0) cs).start_time = some "" := by
  obtain ⟨_, _, hstart, _, _, _, _⟩ := classChain_fields c0 cs
  rw [hstart]
  cases hcs : cs with
  | nil =>
    left
    show roundO (chainOpt [roundO c0.start_time]) = chainOpt [roundO c0.start_time]
    show roundO (roundO c0.start_time) = roundO c0.start_time
    exact roundO_out _
  | cons c1 cs1 =>
    have hg : ∀ o ∈ (c0 :: c1 :: cs1).map (fun r => roundO r.start_time),
        goodOStr o = true := by
      intro o ho
      obtain ⟨r, hr, rfl⟩ := List.mem_map.mp ho
      exact roundO_fix_good (roundO_out _)
    rw [List.map_cons]
    rw [chainOpt_char _ _ (by simpa using hg) (Or.inr (by simp))]
    cases hf : (((roundO c0.start_time :: (c1 :: cs1).map (fun r => roundO r.start_time)).map
        (fun o => o.getD "")).filter (fun s => s != "")) with
    | nil =>
      right
      simp
    | cons x xs =>
      left
      rw [List.getLastD_cons]
      have hmem : xs.getLastD x ∈ x :: xs := List.getLastD_mem_cons xs x
      rw [← hf] at hmem
      have hne2 : xs.getLastD x ≠ "" := by
        have := List.of_mem_filter hmem
        simpa using this
      obtain ⟨o, hol, hov⟩ := List.mem_map.mp (List.mem_of_mem_filter hmem)
      have hosome : o = some (xs.getLastD x) := by
        cases o with
        | none => exact absurd (show xs.getLastD x = "" from hov.symm) hne2
        | some s => rw [Option.getD_some] at hov; rw [hov]
      rw [hosome] at hol
      have hro : roundO (some (xs.getLastD x)) = some (xs.getLastD x) := by
        rcases List.mem_cons.mp hol with h1 | h2
        · rw [h1]
          exact roundO_out _
        · obtain ⟨r, hr, hv⟩ := List.mem_map.mp h2
          rw [← hv]
          exact roundO_out _
      exact hro

/-! The stable insertion sort of step 5: permutation and sortedness. -/

theorem insertRow_perm (x : Row) (l : List Row) : List.Perm (insertRow x l) (x :: l) := by
  induction l with
  | nil => exact List.Perm.refl _
  | cons y ys ih =>
    rw [insertRow]
    by_cases h : sortKeyMs y ≤ sortKeyMs x
    · rw [if_pos h]
      exact (ih.cons y).trans (List.Perm.swap x y ys)
    · rw [if_neg h]

theorem foldl_insertRow_perm : ∀ (l acc : List Row),
    List.Perm (l.foldl (fun acc r => insertRow r acc) acc) (acc ++ l) := by
  intro l
  induction l with
  | nil => intro acc; simp
  | cons r rs ih =>
    intro acc
    rw [List.foldl_cons]
    refine ((ih (insertRow r acc)).trans ?_)
    refine ((insertRow_perm r acc).append_right rs).trans ?_
    exact List.perm_middle.symm

theorem sortRows_perm (l : List Row) : List.Perm (sortRows l) l := by
  have := foldl_insertRow_perm l []
  simpa [sortRows] using this

theorem insertRow_mem_iff (x z : Row) (l : List Row) :
    z ∈ insertRow x l ↔ z = x ∨ z ∈ l := by
  rw [(insertRow_perm x l).mem_iff]
  simp

theorem insertRow_sorted (x : Row) (l : List Row)
    (h : l.Pairwise (fun a b => sortKeyMs a ≤ sortKeyMs b)) :
    (insertRow x l).Pairwise (fun a b => sortKeyMs a ≤ sortKeyMs b) := by
  induction l with
  | nil => simp [insertRow]
  | cons y ys ih =>
    rw [List.pairwise_cons] at h
    rw [insertRow]
    by_cases hyx : sortKeyMs y ≤ sortKeyMs x
    · rw [if_pos hyx]
      rw [List.pairwise_cons]
      refine ⟨?_, ih h.2⟩
      intro z hz
      rcases (insertRow_mem_iff x z ys).mp hz with rfl | hz2
      · exact hyx
      · exact h.1 z hz2
    · rw [if_neg hyx]
      have hxy : sortKeyMs x ≤ sortKeyMs y := le_of_not_le hyx
      rw [List.pairwise_cons]
      refine ⟨?_, List.pairwise_cons.mpr h⟩
      intro z hz
      rcases List.mem_cons.mp hz with rfl | hz2
      · exact hxy
      · exact le_trans hxy (h.1 z hz2)

theorem foldl_insertRow_sorted : ∀ (l acc : List Row),
    acc.Pairwise (fun a b => sortKeyMs a ≤ sortKeyMs b) →
    (l.foldl (fun acc r => insertRow r acc) acc).Pairwise
      (fun a b => sortKeyMs a ≤ sortKeyMs b) := by
  intro l
  induction l with
  | nil => intro acc h; exact h
  | cons r rs ih =>
    intro acc h
    rw [List.foldl_cons]
    exact ih _ (insertRow_sorted r acc h)

theorem sortRows_sorted (l : List Row) :
    (sortRows l).Pairwise (fun a b => sortKeyMs a ≤ sortKeyMs b) :=
  foldl_insertRow_sorted l [] (by simp)

theorem insertRow_append_of_le (x : Row) (l : List Row)
    (h : ∀ y ∈ l, sortKeyMs y ≤ sortKeyMs x) : insertRow x l = l ++ [x] := by
  induction l with
  | nil => rfl
  | cons y ys ih =>
    rw [insertRow]
    have hy : sortKeyMs y ≤ sortKeyMs x := h y (by simp)
    rw [if_pos hy, List.cons_append]
    rw [ih (fun z hz => h z (by simp [hz]))]

theorem foldl_insertRow_of_sorted : ∀ (l acc : List Row),
    (acc ++ l).Pairwise (fun a b => sortKeyMs a ≤ sortKeyMs b) →
    l.foldl (fun acc r => insertRow r acc) acc = acc ++ l := by
  intro l
  induction l with
  | nil => intro acc h; simp
  | cons r rs ih =>
    intro acc h
    rw [List.foldl_cons]
    have hle : ∀ y ∈ acc, sortKeyMs y ≤ sortKeyMs r := by
      intro y hy
      have := (List.pairwise_append.mp h).2.2
      exact this y hy r (by simp)
    rw [insertRow_append_of_le r acc hle]
    have h2 : ((acc ++ [r]) ++ rs).Pairwise (fun a b => sortKeyMs a ≤ sortKeyMs b) := by
      rw [List.append_assoc, List.singleton_append]
      exact h
    rw [ih (acc ++ [r]) h2, List.append_assoc, List.singleton_append]

theorem sortRows_of_sorted (l : List Row)
    (h : l.Pairwise (fun a b => sortKeyMs a ≤ sortKeyMs b)) : sortRows l = l := by
  have := foldl_insertRow_of_sorted l [] (by simpa)
  simpa [sortRows] using this

theorem parseDT_empty : parseDT "" = none := by decide

theorem normRow_of_fix {r : Row} (h : roundO r.start_time = r.start_time) :
    normRow r = r := by
  unfold normRow
  rw [h]

theorem chainOpt_last (l1 l2 : List (Option String))
    (hg : ∀ o ∈ l1 ++ l2, goodOStr o = true) (t2 : String)
    (h2 : chainOpt l2 = some t2) (ht2 : t2 ≠ "") :
    chainOpt (l1 ++ l2) = some t2 := by
  cases l2 with
  | nil => simp [chainOpt] at h2
  | cons a bs =>
    have hg2 : ∀ o ∈ a :: bs, goodOStr o = true := fun o ho => hg o (by simp [ho])
    have hfl : (((a :: bs).map (fun o => o.getD "")).filter
          (fun s => s != "")).getLastD "" = t2 ∧
        (((a :: bs).map (fun o => o.getD "")).filter (fun s => s != "")) ≠ [] := by
      cases bs with
      | nil =>
        have ha : a = some t2 := h2
        subst ha
        have hb : (t2 != "") = true := by simpa using ht2
        simp [hb]
      | cons c cs =>
        rw [chainOpt_char a (c :: cs) hg2 (Or.inr (by simp))] at h2
        have hv := Option.some.inj h2
        refine ⟨hv, ?_⟩
        intro hnil
        rw [hnil] at hv
        simp only [List.getLastD_nil] at hv
        exact ht2 hv.symm
    cases l1 with
    | nil => simpa using h2
    | cons x xs =>
      have hgall : ∀ o ∈ x :: (xs ++ a :: bs), goodOStr o = true := by
        intro o ho
        exact hg o (by simpa using ho)
      rw [List.cons_append, chainOpt_char x (xs ++ a :: bs) hgall (Or.inr (by simp))]
      congr 1
      have hsplit : (x :: (xs ++ a :: bs)) = (x :: xs) ++ (a :: bs) := rfl
      rw [hsplit, List.map_append, List.filter_append, getLastD_append]
      have hemp : (((a :: bs).map (fun o => o.getD "")).filter
          (fun s => s != "")).isEmpty = false := by
        cases hcc : ((a :: bs).map (fun o => o.getD "")).filter (fun s => s != "") with
        | nil => exact absurd hcc hfl.2
        | cons u us => rfl
      rw [hemp]
      simp only [Bool.false_eq_true, if_false]
      exact hfl.1

theorem any_congr {α : Type} (l : List α) (p q : α → Bool) (h : ∀ a ∈ l, p a = q a) :
    l.any p = l.any q := by
  induction l with
  | nil => rfl
  | cons a as ih =>
    simp only [List.any_cons, h a (by simp)]
    rw [ih (fun x hx => h x (by simp [hx]))]

theorem addOrMerge_keys (m : List (String × Row)) (r : Row) (k : String) :
    (addOrMerge m r).any (fun p => p.1 == k)
      = (m.any (fun p => p.1 == k) || (keyR r == k)) := by
  by_cases hc : m.any (fun p => p.1 == keyR r) = true
  · rw [addOrMerge_present m r hc]
    have hmap : (m.map (fun p => if p.1 == keyR r
        then (p.1, mergeRowsManualFirst p.2 (normRow r)) else p)).any (fun p => p.1 == k)
        = m.any (fun p => p.1 == k) := by
      rw [List.any_map]
      apply any_congr
      intro p hp
      by_cases hpk : (p.1 == keyR r) = true
      · simp [Function.comp, hpk]
      · simp only [Function.comp]
        rw [if_neg (by simpa using hpk)]
    rw [hmap]
    by_cases hk : (keyR r == k) = true
    · have hkk : keyR r = k := by simpa using hk
      subst hkk
      rw [hc]
      simp
    · have hkf : (keyR r == k) = false := by simpa using hk
      rw [hkf, Bool.or_false]
  · have hcf : m.any (fun p => p.1 == keyR r) = false := Bool.eq_false_iff.mpr hc
    rw [addOrMerge_absent m r hcf, List.any_append]
    simp

theorem foldl_addOrMerge_any (G : List Row) : ∀ (m : List (String × Row)) (k : String),
    (G.foldl addOrMerge m).any (fun p => p.1 == k)
      = (m.any (fun p => p.1 == k) || G.any (fun r => keyR r == k)) := by
  induction G with
  | nil => intro m k; simp
  | cons g gs ih =>
    intro m k
    rw [List.foldl_cons, ih, addOrMerge_keys]
    simp [Bool.or_assoc]

theorem buildMap_keys (G : List Row) (k : String) :
    (buildMap G).any (fun p => p.1 == k) = G.any (fun r => keyR r == k) := by
  unfold buildMap
  rw [foldl_addOrMerge_any]
  simp

theorem isLive_congr_start (r r' : Row) (now d : Int)
    (h : r.start_time = r'.start_time) : isLive r now d = isLive r' now d := by
  unfold isLive
  rw [h]

/-- If the feed part of a class produces a live chain on its own, the full
class chain is live as well (the feed suffix decides the surviving start). -/
theorem class_live_transfer (c0 : Row) (cs : List Row) (c0' : Row) (cs' : List Row)
    (Sc Fc : List Row) (h1 : Sc ++ Fc = c0 :: cs) (h2 : Fc = c0' :: cs')
    (now d : Int)
    (hlive : isLive (mergeChain (normRow c0') cs') now d = true) :
    isLive (mergeChain (normRow c0) cs) now d = true := by
  obtain ⟨_, _, hstart1, _, _, _, _⟩ := classChain_fields c0 cs
  obtain ⟨_, _, hstart2, _, _, _, _⟩ := classChain_fields c0' cs'
  cases hb : (mergeChain (normRow c0') cs').start_time with
  | none =>
    unfold isLive at hlive
    rw [hb] at hlive
    simp at hlive
  | some t2 =>
    have ht2 : t2 ≠ "" := by
      intro hcon
      subst hcon
      unfold isLive at hlive
      rw [hb] at hlive
      rw [show (some "").bind parseDT = none by rw [Option.some_bind]; exact parseDT_empty]
        at hlive
      simp at hlive
    have hc2 : chainOpt ((c0' :: cs').map (fun r => roundO r.start_time)) = some t2 := by
      rw [← hstart2]
      exact hb
    have hgO : ∀ o ∈ Sc.map (fun r => roundO r.start_time)
        ++ Fc.map (fun r => roundO r.start_time), goodOStr o = true := by
      intro o ho
      rcases List.mem_append.mp ho with hmem | hmem
      · obtain ⟨r, hr, rfl⟩ := List.mem_map.mp hmem
        exact roundO_fix_good (roundO_out _)
      · obtain ⟨r, hr, rfl⟩ := List.mem_map.mp hmem
        exact roundO_fix_good (roundO_out _)
    have hcomb := chainOpt_last (Sc.map (fun r => roundO r.start_time))
      (Fc.map (fun r => roundO r.start_time)) hgO t2 (by rw [h2]; exact hc2) ht2
    have hs1 : (mergeChain (normRow c0) cs).start_time = some t2 := by
      rw [hstart1, ← h1, List.map_append]
      exact hcomb
    rw [isLive_congr_start _ (mergeChain (normRow c0') cs') now d (by rw [hs1, hb])]
    exact hlive

theorem mapValues_append (a b : List (String × Row)) :
    mapValues (a ++ b) = mapValues a ++ mapValues b := by
  unfold mapValues
  rw [List.map_append]

/-- Run-to-run stability of the pipeline on good (clean, unlocked) rows:
feeding the output back as the store with the same feed reproduces it. -/
theorem pipeline_stable (S F : List Row) (now d : Int)
    (hgS : ∀ r ∈ S, goodRow r = true) (hgF : ∀ r ∈ F, goodRow r = true) :
    runPipeline (runPipeline S F now d) F now d = runPipeline S F now d := by
  have hgSF : ∀ r ∈ S ++ F, goodRow r = true := by
    intro r hr
    rcases List.mem_append.mp hr with h | h
    · exact hgS r h
    · exact hgF r h
  have hentry : ∀ p ∈ buildMap (S ++ F), keyOf p.2 = p.1 ∧
      ∃ c0 cs, (S ++ F).filter (fun r => keyR r == p.1) = c0 :: cs ∧
        p.2 = mergeChain (normRow c0) cs := by
    intro p hp
    obtain ⟨c0, cs, hcls, hk0, hval⟩ := buildMap_entry _ p hp
    have hgcls : ∀ r ∈ c0 :: cs, goodRow r = true := by
      intro r hr
      rw [← hcls] at hr
      exact hgSF r (List.mem_of_mem_filter hr)
    have hkcls : ∀ r ∈ c0 :: cs, keyR r = keyR c0 := by
      intro r hr
      rw [← hcls] at hr
      have h2 : keyR r = p.1 := by simpa using List.of_mem_filter hr
      rw [hk0]
      exact h2
    refine ⟨?_, c0, cs, hcls, hval⟩
    rw [hval, ← hk0]
    exact chain_keyOf c0 cs hgcls hkcls
  have hmemout : ∀ x ∈ runPipeline S F now d,
      x ∈ mapValues (buildMap (S ++ F)) ∧ isLive x now d = true := by
    intro x hx
    unfold runPipeline at hx
    have hx2 := (sortRows_perm _).mem_iff.mp hx
    rw [keptRows_eq_filter] at hx2
    have hlv := List.of_mem_filter hx2
    exact ⟨List.mem_of_mem_filter hx2, hlv⟩
  have hstartlive : ∀ (x : Row), isLive x now d = true →
      ∃ t, x.start_time = some t ∧ t ≠ "" := by
    intro x hl
    cases hb : x.start_time with
    | none =>
      unfold isLive at hl
      rw [hb] at hl
      simp at hl
    | some t =>
      refine ⟨t, rfl, ?_⟩
      intro hcon
      subst hcon
      unfold isLive at hl
      rw [hb] at hl
      rw [show (some "").bind parseDT = none by
        rw [Option.some_bind]; exact parseDT_empty] at hl
      simp at hl
  have hnorm1 : ∀ x ∈ runPipeline S F now d, normRow x = x := by
    intro x hx
    obtain ⟨hxm, hxl⟩ := hmemout x hx
    obtain ⟨p, hp, hpx⟩ := List.mem_map.mp hxm
    obtain ⟨hkey, c0, cs, hcls, hval⟩ := hentry p hp
    rcases chain_start_shape c0 cs with hfix | hdeg
    · apply normRow_of_fix
      rw [← hpx, hval]
      exact hfix
    · exfalso
      obtain ⟨t, hts, htne⟩ := hstartlive x hxl
      rw [← hpx, hval, hdeg] at hts
      exact htne (Option.some.inj hts).symm
  have hdis1 : (runPipeline S F now d).Pairwise (fun a b => keyOf a ≠ keyOf b) := by
    have h0 := buildMap_keys_nodup (S ++ F) [] List.Pairwise.nil
    have h1 : (buildMap (S ++ F)).Pairwise (fun p q => keyOf p.2 ≠ keyOf q.2) := by
      refine h0.imp_of_mem ?_
      intro p q hp hq hne
      rw [(hentry p hp).1, (hentry q hq).1]
      exact hne
    have h2 : (mapValues (buildMap (S ++ F))).Pairwise (fun a b => keyOf a ≠ keyOf b) :=
      List.pairwise_map.mpr h1
    have h3 : (keptRows (mapValues (buildMap (S ++ F))) now d).Pairwise
        (fun a b => keyOf a ≠ keyOf b) := by
      rw [keptRows_eq_filter]
      exact h2.sublist (List.filter_sublist _)
    unfold runPipeline
    exact ((sortRows_perm _).pairwise_iff (fun hab => fun e => hab e.symm)).mpr h3
  have hstab : ∀ x ∈ runPipeline S F now d,
      mergeChain x (F.filter (fun r => keyR r == keyOf x)) = x := by
    intro x hx
    obtain ⟨hxm, hxl⟩ := hmemout x hx
    obtain ⟨p, hp, hpx⟩ := List.mem_map.mp hxm
    obtain ⟨hkey, c0, cs, hcls, hval⟩ := hentry p hp
    have hgcls : ∀ r ∈ c0 :: cs, goodRow r = true := by
      intro r hr
      rw [← hcls] at hr
      exact hgSF r (List.mem_of_mem_filter hr)
    obtain ⟨t, hts, htne⟩ := hstartlive x hxl
    have hsplit : S.filter (fun r => keyR r == p.1) ++ F.filter (fun r => keyR r == p.1)
        = c0 :: cs := by
      rw [← List.filter_append]
      exact hcls
    have hst : (mergeChain (normRow c0) cs).start_time = some t := by
      rw [← hval, hpx]
      exact hts
    have hrs := chain_row_stable c0 cs (S.filter (fun r => keyR r == p.1))
      (F.filter (fun r => keyR r == p.1)) hsplit hgcls t hst htne
    rw [← hval, hpx] at hrs
    rw [show keyOf x = p.1 by rw [← hpx]; exact hkey]
    exact hrs
  have hbm1 : buildMap (runPipeline S F now d)
      = (runPipeline S F now d).map (fun r => (keyOf r, r)) :=
    buildMap_of_distinct _ hnorm1 hdis1
  have hb : buildMap (runPipeline S F now d ++ F)
      = F.foldl addOrMerge (buildMap (runPipeline S F now d)) := by
    unfold buildMap
    rw [List.foldl_append]
  have hdecomp : buildMap (runPipeline S F now d ++ F)
      = ((runPipeline S F now d).map (fun r => (keyOf r, r))).map
          (fun p => (p.1, mergeChain p.2 (F.filter (fun r => keyR r == p.1))))
        ++ buildMap (F.filter (fun r =>
            !(((runPipeline S F now d).map (fun r => (keyOf r, r))).any
              (fun q => q.1 == keyR r)))) := by
    rw [hb, hbm1]
    exact foldl_addOrMerge_decomp F _
  have hpiece1 : ((runPipeline S F now d).map (fun r => (keyOf r, r))).map
      (fun p => (p.1, mergeChain p.2 (F.filter (fun r => keyR r == p.1))))
      = (runPipeline S F now d).map (fun r => (keyOf r, r)) := by
    rw [List.map_map]
    apply List.map_congr_left
    intro x hx
    show (keyOf x, mergeChain x (F.filter (fun r => keyR r == keyOf x))) = (keyOf x, x)
    rw [hstab x hx]
  have hdead : ∀ v ∈ mapValues (buildMap (F.filter (fun r =>
      !(((runPipeline S F now d).map (fun r => (keyOf r, r))).any
        (fun q => q.1 == keyR r))))), isLive v now d = false := by
    intro v hv
    obtain ⟨q, hq, hqv⟩ := List.mem_map.mp hv
    by_contra hlv
    have hlive : isLive v now d = true := by
      cases hbv : isLive v now d
      · exact absurd hbv hlv
      · rfl
    obtain ⟨c0', cs', hcls', hk0', hval'⟩ := buildMap_entry _ q hq
    have hc0'F : c0' ∈ F.filter (fun r =>
        !(((runPipeline S F now d).map (fun r => (keyOf r, r))).any
          (fun q => q.1 == keyR r))) := by
      have hm : c0' ∈ (F.filter (fun r =>
          !(((runPipeline S F now d).map (fun r => (keyOf r, r))).any
            (fun q => q.1 == keyR r)))).filter (fun r => keyR r == q.1) := by
        rw [hcls']
        simp
      exact List.mem_of_mem_filter hm
    have hfresh : ((runPipeline S F now d).map (fun r => (keyOf r, r))).any
        (fun p => p.1 == keyR c0') = false := by
      have := List.of_mem_filter hc0'F
      simpa using this
    have hc0'inF : c0' ∈ F := List.mem_of_mem_filter hc0'F
    have hany : (buildMap (S ++ F)).any (fun p => p.1 == keyR c0') = true := by
      rw [buildMap_keys]
      rw [List.any_eq_true]
      exact ⟨c0', by simp [hc0'inF], by simp⟩
    obtain ⟨p, hp, hpk⟩ := List.any_eq_true.mp hany
    have hpk2 : p.1 = keyR c0' := eq_of_beq hpk
    obtain ⟨hkey, c0, cs, hcls, hval⟩ := hentry p hp
    have hp1q : p.1 = q.1 := by rw [hpk2, hk0']
    have hFc : F.filter (fun r => keyR r == p.1) = c0' :: cs' := by
      rw [hp1q, ← hcls', List.filter_filter]
      apply List.filter_congr
      intro r hr
      by_cases hrk : (keyR r == q.1) = true
      · rw [hrk, Bool.true_and]
        have hrk2 : keyR r = q.1 := by simpa using hrk
        rw [hrk2, ← hk0', hfresh]
        rfl
      · have hrkf : (keyR r == q.1) = false := by simpa using hrk
        rw [hrkf, Bool.false_and]
    have hsplit : S.filter (fun r => keyR r == p.1) ++ F.filter (fun r => keyR r == p.1)
        = c0 :: cs := by
      rw [← List.filter_append]
      exact hcls
    have hlive1 : isLive (mergeChain (normRow c0) cs) now d = true := by
      apply class_live_transfer c0 cs c0' cs' (S.filter (fun r => keyR r == p.1))
        (F.filter (fun r => keyR r == p.1)) hsplit hFc now d
      rw [← hval', hqv]
      exact hlive
    have hpout : p.2 ∈ runPipeline S F now d := by
      unfold runPipeline
      apply (sortRows_perm _).mem_iff.mpr
      rw [keptRows_eq_filter]
      apply List.mem_filter.mpr
      constructor
      · exact List.mem_map_of_mem _ hp
      · rw [hval]
        exact hlive1
    have hin : ((runPipeline S F now d).map (fun r => (keyOf r, r))).any
        (fun p => p.1 == keyR c0') = true := by
      rw [List.any_eq_true]
      refine ⟨(keyOf p.2, p.2), List.mem_map_of_mem _ hpout, ?_⟩
      show (keyOf p.2 == keyR c0') = true
      rw [hkey, hpk2]
      simp
    exact Bool.false_ne_true (hfresh.symm.trans hin)
  have hf1 : (runPipeline S F now d).filter (fun r => isLive r now d)
      = runPipeline S F now d :=
    List.filter_eq_self.mpr (fun x hx => (hmemout x hx).2)
  have hf2 : (mapValues (buildMap (F.filter (fun r =>
      !(((runPipeline S F now d).map (fun r => (keyOf r, r))).any
        (fun q => q.1 == keyR r)))))).filter (fun r => isLive r now d) = [] := by
    rw [List.filter_eq_nil_iff]
    intro v hv
    rw [hdead v hv]
    simp
  have hvals1 : mapValues ((runPipeline S F now d).map (fun r => (keyOf r, r)))
      = runPipeline S F now d := by
    unfold mapValues
    rw [List.map_map]
    have hcomp : ((fun p : String × Row => p.2) ∘ fun r : Row => (keyOf r, r))
        = fun r => r := by
      funext r
      rfl
    rw [hcomp]
    exact List.map_id' _
  have hkept2 : keptRows (mapValues (buildMap (runPipeline S F now d ++ F))) now d
      = runPipeline S F now d := by
    rw [hdecomp, hpiece1, mapValues_append, keptRows_eq_filter, List.filter_append,
      hvals1, hf1, hf2, List.append_nil]
  have hsorted : (runPipeline S F now d).Pairwise
      (fun a b => sortKeyMs a ≤ sortKeyMs b) := by
    unfold runPipeline
    exact sortRows_sorted _
  show sortRows (keptRows (mapValues (buildMap (runPipeline S F now d ++ F))) now d)
      = runPipeline S F now d
  rw [hkept2]
  exact sortRows_of_sorted _ hsorted

/-- Store and feed rows of the concrete idempotence scenario: one shared
id (`e1`), clean and unlocked fields throughout. -/
def c4S : List Row :=
  [{ id := "e1", name := "Fest", start_time := some "2026-01-01T20:00:00+01:00",
     place := "Bourges", cover := "poster.jpg", event_url := "", ticket_url := "" }]

def c4F : List Row :=
  [{ id := "e1", name := "Fest Noz", start_time := some "2026-01-01T20:30:00+01:00",
     place := "Bourges", cover := "", event_url := "https://example.com/e1",
     ticket_url := "" }]

/-- C4 (amended): on clean, unlocked rows the pass is idempotent at the
byte level — re-running the pipeline on its own parsed CSV output with the
same feed reproduces the same CSV bytes (the roundtrip hypothesis states
that the produced file survives parse∘unparse). -/
theorem C4_idempotence_amended (S F : List Row) (now d : Int)
    (hgS : ∀ r ∈ S, goodRow r = true) (hgF : ∀ r ∈ F, goodRow r = true)
    (hrt : parseCSV (unparseCSV (runPipeline S F now d)) = runPipeline S F now d) :
    unparseCSV (runPipeline (parseCSV (unparseCSV (runPipeline S F now d))) F now d)
      = unparseCSV (runPipeline S F now d) := by
  rw [hrt, pipeline_stable S F now d hgS hgF]

/-- Witness for C4: the hypotheses hold at the concrete scenario and the
second run reproduces the first run's CSV bytes. -/
theorem C4_idempotence_amended_witness :
    ((∀ r ∈ c4S, goodRow r = true) ∧ (∀ r ∈ c4F, goodRow r = true) ∧
      parseCSV (unparseCSV (runPipeline c4S c4F 0 24)) = runPipeline c4S c4F 0 24) ∧
    unparseCSV (runPipeline (parseCSV (unparseCSV (runPipeline c4S c4F 0 24))) c4F 0 24)
      = unparseCSV (runPipeline c4S c4F 0 24) :=
  ⟨⟨by decide, by decide, by decide⟩,
    C4_idempotence_amended c4S c4F 0 24 (by decide) (by decide) (by decide)⟩

/-- Store and feed of the identity-uniqueness scenario: one id-keyed store
row, one fingerprint-keyed feed row. -/
def c5S : List Row :=
  [{ id := "m1", name := "Fest", start_time := some "2026-01-01T20:00:00+01:00",
     place := "Bourges", cover := "poster.jpg", event_url := "", ticket_url := "" }]

def c5F : List Row :=
  [{ id := "", name := "Bal Trad", start_time := some "2026-01-02T21:00:00+01:00",
     place := "Bourges", cover := "", event_url := "https://example.com/e2",
     ticket_url := "" }]

/-- C5 (amended): on clean, unlocked rows the pass emits at most one record
per identity — the output rows carry pairwise distinct `keyOf` keys. -/
theorem C5_unique_keys_amended (S F : List Row) (now d : Int)
    (hgS : ∀ r ∈ S, goodRow r = true) (hgF : ∀ r ∈ F, goodRow r = true) :
    (runPipeline S F now d).Pairwise (fun a b => keyOf a ≠ keyOf b) := by
  have hgSF : ∀ r ∈ S ++ F, goodRow r = true := by
    intro r hr
    rcases List.mem_append.mp hr with h | h
    · exact hgS r h
    · exact hgF r h
  have hentry : ∀ p ∈ buildMap (S ++ F), keyOf p.2 = p.1 := by
    intro p hp
    obtain ⟨c0, cs, hcls, hk0, hval⟩ := buildMap_entry _ p hp
    have hgcls : ∀ r ∈ c0 :: cs, goodRow r = true := by
      intro r hr
      rw [← hcls] at hr
      exact hgSF r (List.mem_of_mem_filter hr)
    have hkcls : ∀ r ∈ c0 :: cs, keyR r = keyR c0 := by
      intro r hr
      rw [← hcls] at hr
      have h2 : keyR r = p.1 := by simpa using List.of_mem_filter hr
      rw [hk0]
      exact h2
    rw [hval, ← hk0]
    exact chain_keyOf c0 cs hgcls hkcls
  have h0 := buildMap_keys_nodup (S ++ F) [] List.Pairwise.nil
  have h1 : (buildMap (S ++ F)).Pairwise (fun p q => keyOf p.2 ≠ keyOf q.2) := by
    refine h0.imp_of_mem ?_
    intro p q hp hq hne
    rw [hentry p hp, hentry q hq]
    exact hne
  have h2 : (mapValues (buildMap (S ++ F))).Pairwise (fun a b => keyOf a ≠ keyOf b) :=
    List.pairwise_map.mpr h1
  have h3 : (keptRows (mapValues (buildMap (S ++ F))) now d).Pairwise
      (fun a b => keyOf a ≠ keyOf b) := by
    rw [keptRows_eq_filter]
    exact h2.sublist (List.filter_sublist _)
  show (sortRows (keptRows (mapValues (buildMap (S ++ F))) now d)).Pairwise
    (fun a b => keyOf a ≠ keyOf b)
  exact ((sortRows_perm _).pairwise_iff (fun hab => fun e => hab e.symm)).mpr h3

/-- Witness for C5: at the concrete two-identity scenario the hypotheses
hold and the two output records carry distinct keys. -/
theorem C5_unique_keys_amended_witness :
    ((∀ r ∈ c5S, goodRow r = true) ∧ (∀ r ∈ c5F, goodRow r = true)) ∧
    (runPipeline c5S c5F 0 24).Pairwise (fun a b => keyOf a ≠ keyOf b) :=
  ⟨⟨by decide, by decide⟩,
    C5_unique_keys_amended c5S c5F 0 24 (by decide) (by decide)⟩

end Kiz
